import Mathlib

/-!
Verification of logpyle (illinois-ceesd/logpyle) against its natural-language
specification.  Shallow embedding of the Python source:

* `logpyle/runalyzer_gather.py` — `larger_sql_type`
* `logpyle/__init__.py` — `_join_by_first_of_tuple`, `LogManager` tick engine
  (`tick_before`, `tick_after`, `_gather_for_descriptor`, `_insert_datapoint`,
  `add_quantity`, `set_constant`, `_load`), `get_expr_dataset` evaluation loop
* `logpyle/runalyzer.py` — `MagicRunDB.mangle_sql`

Machine integers do not occur (steps and ranks are unbounded Python ints,
modelled as `Nat`); fallible code returns `Option`/`Except` or a `Bool` error
flag mirroring raised exceptions.
-/

namespace Logpyle

/-! ## SQL type widening (`runalyzer_gather.larger_sql_type`) -/

/-- SQL column types appearing in `runalyzer_gather.py`. The Python function
asserts its arguments are in `[None, "text", "real", "integer"]`; `Option
SqlType` models that domain. -/
inductive SqlType
  | integer
  | real
  | text
deriving DecidableEq, Fintype, Repr

/-- Embedding of `larger_sql_type` (runalyzer_gather.py lines 49-62):
`None` yields the other argument; `text` dominates, then `real`, else
`integer`. -/
def larger_sql_type : Option SqlType → Option SqlType → Option SqlType
  | none, type_b => type_b
  | type_a, none => type_a
  | some type_a, some type_b =>
    if type_a = .text ∨ type_b = .text then some .text
    else if type_a = .real ∨ type_b = .real then some .real
    else some .integer

/-- The widening rank: `integer < real < text`, with `None` below all. -/
def sqlTypeRank : Option SqlType → Nat
  | none => 0
  | some .integer => 1
  | some .real => 2
  | some .text => 3

/-- Dict lookup: value of the first entry with the given key (in a Python
dict keys are unique, so "first" is exact). -/
def dlook {V : Type} : List (String × V) → String → Option V
  | [], _ => none
  | (k, v) :: rest, name => if k = name then some v else dlook rest name

/-- Python dict assignment `d[name] = v`: overwrite in place if the key
exists, else append. -/
def dictSet {V : Type} (d : List (String × V)) (name : String) (v : V) :
    List (String × V) :=
  if (dlook d name).isSome then
    d.map (fun r => if r.1 = name then (r.1, v) else r)
  else d ++ [(name, v)]

/-- The feature-widening step of `scan` (runalyzer_gather.py lines 170-175):

        if fname in features:
            features[fname] = larger_sql_type(ftype, features[fname])
        else:
            if ftype is None:
                ftype = "text"
            features[fname] = ftype
-/
def scan_feature_step (features : List (String × Option SqlType))
    (fname : String) (ftype : Option SqlType) :
    List (String × Option SqlType) :=
  match dlook features fname with
  | some told => dictSet features fname (larger_sql_type ftype told)
  | none =>
    dictSet features fname
      (match ftype with
       | none => some SqlType.text
       | t => t)

/-- The feature dict produced by the `scan` loop (runalyzer_gather.py lines
147-177, restricted to its feature-type effect): each run contributes its
`(fname, ftype)` pairs in order, over the runs in scan order, starting from
the empty dict. -/
def scan_features (runs : List (List (String × Option SqlType))) :
    List (String × Option SqlType) :=
  runs.foldl
    (fun features run =>
      run.foldl (fun fs p => scan_feature_step fs p.1 p.2) features)
    []

/-- C9 (amended): `larger_sql_type` returns the larger argument under the
order `None < integer < real < text` (so `None` is an identity), and the
operation is commutative and associative.  This does not make the widened
type of a feature independent of the scan order: `scan` coerces a feature's
first-seen `None` type to `text` before storing it, while later `None`
occurrences pass through `larger_sql_type` as an identity (see
`scan_widened_type_order_dependent_cex`). -/
theorem larger_sql_type_is_max :
    (∀ a b : Option SqlType,
      larger_sql_type a b = if sqlTypeRank b ≤ sqlTypeRank a then a else b)
    ∧ (∀ a : Option SqlType, larger_sql_type none a = a
        ∧ larger_sql_type a none = a)
    ∧ (∀ a b : Option SqlType, larger_sql_type a b = larger_sql_type b a)
    ∧ (∀ a b c : Option SqlType,
        larger_sql_type (larger_sql_type a b) c
          = larger_sql_type a (larger_sql_type b c)) := by
  refine ⟨?_, ?_, ?_, ?_⟩ <;> decide

/-- C9 counterexample (to "the widened type of a feature is independent of
the order in which the runs are scanned"): a feature that is `None` in one
run and `integer` in another widens to `text` when the `None` run is scanned
first (first-seen `None` is coerced to `text` at runalyzer_gather.py lines
173-174) but to `integer` when the `integer` run is scanned first (the later
`None` is an identity through `larger_sql_type`). -/
theorem scan_widened_type_order_dependent_cex :
    dlook (scan_features [[("c", none)], [("c", some SqlType.integer)]]) "c"
      = some (some SqlType.text)
    ∧ dlook (scan_features [[("c", some SqlType.integer)], [("c", none)]]) "c"
      = some (some SqlType.integer)
    ∧ scan_features [[("c", none)], [("c", some SqlType.integer)]]
        ≠ scan_features [[("c", some SqlType.integer)], [("c", none)]] := by
  decide

/-! ## Dataset extraction loop (`LogManager.get_expr_dataset`, lines 1144-1152)

The compiled expression is evaluated at every joined step; a
`ZeroDivisionError` at one step is swallowed (`except ZeroDivisionError:
pass`), any other exception propagates out of the loop. -/

/-- Python exceptions as they matter to the `get_expr_dataset` loop:
`ZeroDivisionError` is caught there, everything else propagates. -/
inductive EvalErr
  | zeroDivision
  | other
deriving DecidableEq, Repr

/-- Embedding of the evaluation loop of `get_expr_dataset`:

    for key, values in _join_by_first_of_tuple(...):
        try:
            data.append((key, compiled(*values)))
        except ZeroDivisionError:
            pass

`compiled` is the compiled expression (an external callable, passed in as
`f`). A `zeroDivision` outcome drops the current point; an `other` outcome
aborts the whole extraction (the exception propagates, discarding `data`). -/
def extractData {V : Type} (f : List V → Except EvalErr V) :
    List (Nat × List V) → Except EvalErr (List (Nat × V))
  | [] => .ok []
  | (key, values) :: rest =>
    match f values with
    | .ok y => (extractData f rest).map (fun tail => (key, y) :: tail)
    | .error .zeroDivision => extractData f rest
    | .error .other => .error .other

/-- On a list of rows none of which raises anything but (possibly)
`ZeroDivisionError`, the loop returns exactly the rows whose evaluation
succeeds, in order. -/
theorem extractData_eq_filterMap {V : Type} (f : List V → Except EvalErr V)
    (rows : List (Nat × List V))
    (h : ∀ r ∈ rows, f r.2 ≠ .error .other) :
    extractData f rows = .ok (rows.filterMap (fun r =>
      match f r.2 with
      | .ok y => some (r.1, y)
      | .error _ => none)) := by
  induction rows with
  | nil => rfl
  | cons r rest ih =>
    have hr : f r.2 ≠ .error .other := h r (List.mem_cons_self r rest)
    have hrest : ∀ x ∈ rest, f x.2 ≠ .error .other :=
      fun x hx => h x (List.mem_cons_of_mem r hx)
    obtain ⟨key, values⟩ := r
    simp only [extractData, List.filterMap_cons]
    cases hfv : f values with
    | ok y => simp [ih hrest, Except.map]
    | error e =>
      cases e with
      | zeroDivision => simpa using ih hrest
      | other => exact absurd hfv hr

/-- C8: if evaluating the compiled expression raises `ZeroDivisionError` at
exactly one joined step and succeeds at every other step, the returned table
is exactly the table of all the other steps, in order, with their values
unchanged — the failing point is dropped, no error reaches the caller, and no
other step is affected. -/
theorem get_expr_dataset_drops_zero_division {V : Type}
    (f : List V → Except EvalErr V) (g : Nat × List V → V)
    (pre post : List (Nat × List V)) (s : Nat) (vs : List V)
    (hbad : f vs = .error .zeroDivision)
    (hok : ∀ r ∈ pre ++ post, f r.2 = .ok (g r)) :
    extractData f (pre ++ (s, vs) :: post)
      = .ok ((pre ++ post).map (fun r => (r.1, g r))) := by
  have hother : ∀ r ∈ pre ++ (s, vs) :: post, f r.2 ≠ .error .other := by
    intro r hr
    rcases List.mem_append.1 hr with h | h
    · rw [hok r (List.mem_append_left _ h)]; simp
    · rcases List.mem_cons.1 h with rfl | h
      · simp [hbad]
      · rw [hok r (List.mem_append_right _ h)]; simp
  rw [extractData_eq_filterMap f _ hother]
  congr 1
  rw [List.filterMap_append, List.filterMap_cons, hbad, List.map_append]
  have hmap : ∀ (l : List (Nat × List V)), (∀ r ∈ l, f r.2 = .ok (g r)) →
      l.filterMap (fun r => match f r.2 with
        | .ok y => some (r.1, y) | .error _ => none)
      = l.map (fun r => (r.1, g r)) := by
    intro l hl
    induction l with
    | nil => rfl
    | cons x xs ih =>
      have hy := hl x (List.mem_cons_self x xs)
      simp only [List.filterMap_cons, List.map_cons, hy]
      exact congrArg _ (ih (fun r hr => hl r (List.mem_cons_of_mem x hr)))
  rw [hmap pre (fun r hr => hok r (List.mem_append_left _ hr)),
      hmap post (fun r hr => hok r (List.mem_append_right _ hr))]

/-- A concrete compiled expression for exercising the extraction loop:
division by zero at the argument list `[0]`, otherwise the head value. -/
def exprDivByHead : List Nat → Except EvalErr Nat :=
  fun vs => if vs = [0] then .error .zeroDivision else .ok (vs.headD 7)

theorem get_expr_dataset_drops_zero_division_witness :
    extractData exprDivByHead [(0, [1]), (1, [0]), (2, [3])] = .ok [(0, 1), (2, 3)] := by
  have h := get_expr_dataset_drops_zero_division exprDivByHead
      (fun r => r.2.headD 7) [(0, [1])] [(2, [3])] 1 [0] rfl
      (by
        intro r hr
        simp only [List.cons_append, List.nil_append, List.mem_cons,
          List.not_mem_nil, or_false] at hr
        rcases hr with rfl | rfl <;> rfl)
  exact h.trans rfl


/-! ## Constants (`LogManager.set_constant`, `LogManager._load`)

`set_constant` (lines 902-919) updates the in-memory dict `self.constants`
and then either SQL-`update`s or SQL-`insert`s the pickled value in the
`constants` table, depending on whether the name already existed in the
dict.  `_load` (lines 788-804) re-reads the table into a fresh dict with
`constants[name] = loads(value)` row by row.

Pickle is external; it is modelled by an abstract pair of functions
`dumps : V → B` and `loads : B → V`, with its round-trip contract
(`loads (dumps v) = v`) taken as a hypothesis where needed. -/

/-- The stored side of a `LogManager`'s constants: the in-memory dict
(an association list in insertion order, unique keys in normal operation)
and the rows of the SQL `constants` table. -/
structure ConstStore (V B : Type) where
  constants : List (String × V)
  db_rows : List (String × B)

/-- Embedding of `LogManager.set_constant`:

    existed = name in self.constants
    self.constants[name] = value
    value = bytes(dumps(value))
    if existed: update constants set value = ? where name = ?
    else:       insert into constants values (?,?)
-/
def set_constant {V B : Type} (dumps : V → B) (s : ConstStore V B)
    (name : String) (value : V) : ConstStore V B :=
  if (dlook s.constants name).isSome then
    { constants := dictSet s.constants name value,
      db_rows := s.db_rows.map
        (fun r => if r.1 = name then (r.1, dumps value) else r) }
  else
    { constants := dictSet s.constants name value,
      db_rows := s.db_rows ++ [(name, dumps value)] }

/-- Embedding of the constants part of `LogManager._load`: on reopening,
`for name, value in select name, value from constants:
constants[name] = loads(value)`. -/
def load_constants {V B : Type} (loads : B → V) (rows : List (String × B)) :
    List (String × V) :=
  rows.foldl (fun acc r => dictSet acc r.1 (loads r.2)) []

theorem dlook_map_update_self {V : Type} (d : List (String × V))
    (name : String) (v : V) (h : (dlook d name).isSome) :
    dlook (d.map (fun r => if r.1 = name then (r.1, v) else r)) name = some v := by
  induction d with
  | nil => simp [dlook] at h
  | cons r rest ih =>
    obtain ⟨k, w⟩ := r
    by_cases hk : k = name
    · subst hk
      have hhead : (if (k, w).1 = k then ((k, w).1, v) else (k, w)) = ((k, v) : String × V) := by
        simp
      rw [List.map_cons, hhead]
      simp [dlook]
    · simp only [dlook, if_neg hk] at h
      have hhead : (if (k, w).1 = name then ((k, w).1, v) else (k, w)) = ((k, w) : String × V) := by
        simp [hk]
      rw [List.map_cons, hhead]
      simp only [dlook]
      rw [if_neg hk]
      exact ih h

theorem dlook_map_update_other {V : Type} (d : List (String × V))
    (name n : String) (v : V) (hne : n ≠ name) :
    dlook (d.map (fun r => if r.1 = name then (r.1, v) else r)) n = dlook d n := by
  have hnn : ¬ name = n := fun e => hne e.symm
  induction d with
  | nil => rfl
  | cons r rest ih =>
    obtain ⟨k, w⟩ := r
    by_cases hk : k = name
    · subst hk
      have hhead : (if (k, w).1 = k then ((k, w).1, v) else (k, w)) = ((k, v) : String × V) := by
        simp
      rw [List.map_cons, hhead]
      simp [dlook, hnn, ih]
    · have hhead : (if (k, w).1 = name then ((k, w).1, v) else (k, w)) = ((k, w) : String × V) := by
        simp [hk]
      rw [List.map_cons, hhead]
      by_cases hn : k = n
      · subst hn
        simp [dlook, ih]
      · simp [dlook, hn, ih]

theorem dlook_append_single_self {V : Type} (d : List (String × V))
    (name : String) (v : V) (h : dlook d name = none) :
    dlook (d ++ [(name, v)]) name = some v := by
  induction d with
  | nil => simp [dlook]
  | cons r rest ih =>
    obtain ⟨k, w⟩ := r
    by_cases hk : k = name
    · simp [dlook, hk] at h
    · simp only [dlook, if_neg hk] at h
      simp only [List.cons_append, dlook]
      rw [if_neg hk]
      exact ih h

theorem dlook_append_single_other {V : Type} (d : List (String × V))
    (name n : String) (v : V) (hne : n ≠ name) :
    dlook (d ++ [(name, v)]) n = dlook d n := by
  have hnn : ¬ name = n := fun e => hne e.symm
  induction d with
  | nil => simp [dlook, hnn]
  | cons r rest ih =>
    obtain ⟨k, w⟩ := r
    by_cases hk : k = n
    · simp [dlook, hk]
    · simp [dlook, hk, ih]

theorem dlook_dictSet_self {V : Type} (d : List (String × V)) (name : String)
    (v : V) : dlook (dictSet d name v) name = some v := by
  unfold dictSet
  by_cases h : (dlook d name).isSome
  · rw [if_pos h]
    exact dlook_map_update_self d name v h
  · rw [if_neg h]
    apply dlook_append_single_self
    cases hd : dlook d name with
    | none => rfl
    | some w => rw [hd] at h; exact absurd rfl h

theorem dlook_dictSet_other {V : Type} (d : List (String × V)) (name n : String)
    (v : V) (hne : n ≠ name) : dlook (dictSet d name v) n = dlook d n := by
  unfold dictSet
  by_cases h : (dlook d name).isSome
  · rw [if_pos h]; exact dlook_map_update_other d name n v hne
  · rw [if_neg h]; exact dlook_append_single_other d name n v hne

/-- The last-written row wins in `_load`'s fold: looking up `name` in the
reloaded dict returns `loads` of the value in the last row for `name`. -/
theorem load_constants_lookup {V B : Type} (loads : B → V)
    (rows : List (String × B)) (name : String) (b : B)
    (hlast : ∀ r ∈ rows, r.1 ≠ name ∨ r.2 = b)
    (hmem : ∃ r ∈ rows, r.1 = name) :
    dlook (load_constants loads rows) name = some (loads b) := by
  suffices hgen : ∀ acc : List (String × V),
      dlook (rows.foldl (fun acc r => dictSet acc r.1 (loads r.2)) acc) name
        = some (loads b) from hgen []
  -- once the value is in the accumulator and no later row carries `name`,
  -- it survives the rest of the fold
  have hkeep : ∀ (rest' : List (String × B)) (acc' : List (String × V)),
      (¬ ∃ x ∈ rest', x.1 = name) →
      dlook acc' name = some (loads b) →
      dlook (rest'.foldl (fun acc r => dictSet acc r.1 (loads r.2)) acc') name
        = some (loads b) := by
    intro rest' acc' hno hacc'
    induction rest' generalizing acc' with
    | nil => exact hacc'
    | cons y ys ihy =>
      simp only [List.foldl_cons]
      have hy1 : y.1 ≠ name := fun h => hno ⟨y, List.mem_cons_self y ys, h⟩
      apply ihy
      · intro hys
        obtain ⟨z, hz, hz1⟩ := hys
        exact hno ⟨z, List.mem_cons_of_mem y hz, hz1⟩
      · rw [dlook_dictSet_other _ _ _ _ (fun h => hy1 h.symm)]
        exact hacc'
  induction rows with
  | nil => exact absurd hmem (by simp)
  | cons r rest ih =>
    intro acc
    simp only [List.foldl_cons]
    by_cases hrest : ∃ x ∈ rest, x.1 = name
    · exact ih (fun x hx => hlast x (List.mem_cons_of_mem r hx)) hrest _
    · -- `name` occurs only as the current row `r`
      obtain ⟨x, hxmem, hx1⟩ := hmem
      have hxr : x = r := by
        rcases List.mem_cons.1 hxmem with h | h
        · exact h
        · exact absurd ⟨x, h, hx1⟩ hrest
      subst hxr
      have hval : x.2 = b := by
        rcases hlast x (List.mem_cons_self x rest) with h | h
        · exact absurd hx1 h
        · exact h
      apply hkeep rest _ hrest
      rw [hx1, hval]
      exact dlook_dictSet_self _ _ _

/-- Rows of the `constants` table carrying a given name. -/
def rowsFor {B : Type} (rows : List (String × B)) (name : String) : List B :=
  (rows.filter (fun r => r.1 == name)).map (·.2)

theorem rowsFor_append {B : Type} (A C : List (String × B)) (name : String) :
    rowsFor (A ++ C) name = rowsFor A name ++ rowsFor C name := by
  unfold rowsFor
  rw [List.filter_append, List.map_append]

theorem rowsFor_update {B : Type} (rows : List (String × B)) (name : String)
    (blob : B) :
    rowsFor (rows.map (fun r => if r.1 = name then (r.1, blob) else r)) name
      = (rowsFor rows name).map (fun _ => blob) := by
  induction rows with
  | nil => rfl
  | cons x xs ih =>
    obtain ⟨k, w⟩ := x
    by_cases hk : k = name
    · unfold rowsFor at ih ⊢
      simp only [List.map_cons, List.filter_cons, hk, if_pos rfl,
        beq_self_eq_true, if_true]
      simpa using ih
    · unfold rowsFor at ih ⊢
      have hb : (k == name) = false := beq_eq_false_iff_ne.2 hk
      simp only [List.map_cons, List.filter_cons, if_neg hk, hb]
      simpa using ih

theorem mem_rowsFor {B : Type} (rows : List (String × B)) (name : String)
    (r : String × B) (hr : r ∈ rows) (hname : r.1 = name) :
    r.2 ∈ rowsFor rows name := by
  unfold rowsFor
  exact List.mem_map_of_mem _ (List.mem_filter.2 ⟨hr, beq_iff_eq.2 hname⟩)

theorem set_constant_db_insert {V B : Type} (dumps : V → B) (s : ConstStore V B)
    (name : String) (v : V) (h : dlook s.constants name = none) :
    (set_constant dumps s name v).db_rows = s.db_rows ++ [(name, dumps v)] := by
  unfold set_constant
  rw [h]
  rfl

theorem set_constant_db_update {V B : Type} (dumps : V → B) (s : ConstStore V B)
    (name : String) (v : V) (h : (dlook s.constants name).isSome) :
    (set_constant dumps s name v).db_rows
      = s.db_rows.map (fun r => if r.1 = name then (r.1, dumps v) else r) := by
  unfold set_constant
  rw [if_pos h]

theorem set_constant_constants {V B : Type} (dumps : V → B) (s : ConstStore V B)
    (name : String) (v : V) :
    (set_constant dumps s name v).constants = dictSet s.constants name v := by
  unfold set_constant
  by_cases h : (dlook s.constants name).isSome
  · rw [if_pos h]
  · rw [if_neg h]

/-- C7: writing a constant and reopening the store returns the same value
(serialize-then-deserialize round-trip, under pickle's round-trip contract
`loads (dumps v) = v`), and re-setting the same name overwrites the single
stored row (last-write-wins) instead of adding a second one. -/
theorem set_constant_roundtrip {V B : Type} (dumps : V → B) (loads : B → V)
    (s : ConstStore V B) (name : String) (v₁ v₂ : V)
    (hrt₁ : loads (dumps v₁) = v₁) (hrt₂ : loads (dumps v₂) = v₂)
    (hfresh : dlook s.constants name = none)
    (hdb : rowsFor s.db_rows name = []) :
    -- one write, then reopen-read: the value round-trips
    dlook (load_constants loads (set_constant dumps s name v₁).db_rows) name
        = some v₁
    -- two writes to the same name: still exactly one row, holding the last value
    ∧ rowsFor (set_constant dumps (set_constant dumps s name v₁) name v₂).db_rows
        name = [dumps v₂]
    -- and reopening after both writes yields the last value
    ∧ dlook (load_constants loads
        (set_constant dumps (set_constant dumps s name v₁) name v₂).db_rows)
        name = some v₂ := by
  have hnorow : ∀ r ∈ s.db_rows, r.1 ≠ name := by
    intro r hr hname
    have hmem := mem_rowsFor s.db_rows name r hr hname
    rw [hdb] at hmem
    exact absurd hmem (by simp)
  have hs₁db := set_constant_db_insert dumps s name v₁ hfresh
  have hs₁c : ((dlook (set_constant dumps s name v₁).constants name).isSome) := by
    rw [set_constant_constants, dlook_dictSet_self]
    rfl
  have hs₂db : (set_constant dumps (set_constant dumps s name v₁) name v₂).db_rows
      = (s.db_rows ++ [(name, dumps v₁)]).map
          (fun r => if r.1 = name then (r.1, dumps v₂) else r) := by
    rw [set_constant_db_update dumps _ name v₂ hs₁c, hs₁db]
  refine ⟨?_, ?_, ?_⟩
  · rw [hs₁db]
    have h := load_constants_lookup loads (s.db_rows ++ [(name, dumps v₁)])
        name (dumps v₁)
        (by
          intro r hr
          rcases List.mem_append.1 hr with h | h
          · exact Or.inl (hnorow r h)
          · simp only [List.mem_singleton] at h
            exact Or.inr (by rw [h]))
        ⟨(name, dumps v₁), List.mem_append_right _ (by simp), rfl⟩
    rw [hrt₁] at h
    exact h
  · rw [hs₂db, rowsFor_update, rowsFor_append, hdb]
    simp [rowsFor]
  · rw [hs₂db]
    have h := load_constants_lookup loads
        ((s.db_rows ++ [(name, dumps v₁)]).map
          (fun r => if r.1 = name then (r.1, dumps v₂) else r))
        name (dumps v₂)
        (by
          intro r hr
          obtain ⟨x, hxmem, hx⟩ := List.mem_map.1 hr
          by_cases hx1 : x.1 = name
          · rw [if_pos hx1] at hx
            exact Or.inr (by rw [← hx])
          · rw [if_neg hx1] at hx
            exact Or.inl (by rw [← hx]; exact hx1))
        (by
          refine ⟨(name, dumps v₂), ?_, rfl⟩
          have hm : (name, dumps v₁) ∈ s.db_rows ++ [(name, dumps v₁)] :=
            List.mem_append_right _ (by simp)
          exact List.mem_map.2 ⟨(name, dumps v₁), hm, by simp⟩)
    rw [hrt₂] at h
    exact h

/-- A concrete instance of C7: values and blobs are `Nat`, pickle is the
identity, one fresh store, constant `"a"` set to 1 then 2. -/
theorem set_constant_roundtrip_witness :
    dlook (load_constants (fun b : Nat => b)
        (set_constant (fun v : Nat => v) ⟨[], []⟩ "a" 1).db_rows) "a" = some 1
    ∧ rowsFor (set_constant (fun v : Nat => v)
        (set_constant (fun v : Nat => v) ⟨[], []⟩ "a" 1) "a" 2).db_rows "a" = [2]
    ∧ dlook (load_constants (fun b : Nat => b)
        (set_constant (fun v : Nat => v)
          (set_constant (fun v : Nat => v) ⟨[], []⟩ "a" 1) "a" 2).db_rows) "a"
        = some 2 :=
  set_constant_roundtrip (fun v => v) (fun b => b) ⟨[], []⟩ "a" 1 2
    rfl rfl rfl rfl

/-! ## The LogManager tick engine

State and operations of `LogManager` (`logpyle/__init__.py`), restricted to
the fields the claims speak about: `quantity_data`, `last_values`, the two
gather-descriptor lists, `tick_count`, `rank`, the set of created
per-quantity tables and their rows.

The sampling callable `quantity()` is external stateful code; it is modelled
as a function of the tick count at which the call happens.  `save()` touches
none of these fields (it flushes warning/logging buffers and commits), so it
is the identity here; the same holds for watch printing.  The in-place
`t_log` correction applies only to the reserved self-timing
`LogUpdateDuration` quantity, which is not part of this model. -/

/-- A quantity's shape: single-valued (`LogQuantity`) or multi-valued
(`MultiLogQuantity`), with name(s), unit(s), description(s), default
aggregator(s) (opaque, kept as a string tag) and the sampling callable. -/
inductive QKind (V : Type)
  | single (name : String) (unit : Option String) (description : Option String)
      (agg : Option String) (sample : Nat → Option V)
  | multi (names : List String) (units : List (Option String))
      (descriptions : List (Option String)) (aggs : List (Option String))
      (sample : Nat → List (Option V))

/-- A `LogQuantity`/`MultiLogQuantity`: its kind, whether it is a
`PostLogQuantity` (sampled in `tick_after`), and its `sort_weight`. -/
structure Quantity (V : Type) where
  kind : QKind V
  isPost : Bool
  sort_weight : Int

/-- `_GatherDescriptor`: a quantity and its sampling interval. -/
structure GatherDescriptor (V : Type) where
  quantity : Quantity V
  interval : Nat

/-- `_QuantityData`: metadata stored per registered name. -/
structure QuantityData where
  unit : Option String
  description : Option String
  default_aggregator : Option String
deriving DecidableEq, Repr

/-- The modelled `LogManager` state.  `tables` maps a quantity name to the
rows `(step, rank, value)` of its per-quantity SQL table; `db_tables` lists
the names for which `create table` has run (rows and existence are split so
that partial registration is observable). -/
structure LMState (V : Type) where
  quantity_data : List (String × QuantityData)
  last_values : List (String × V)
  before_gather_descriptors : List (GatherDescriptor V)
  after_gather_descriptors : List (GatherDescriptor V)
  tick_count : Nat
  rank : Nat
  db_tables : List String
  tables : String → List (Nat × Nat × V)

/-- Embedding of `LogManager._insert_datapoint` (lines 921-932): `None` is
dropped; otherwise `last_values[name]` is set and a `(tick_count, rank,
value)` row is appended to the quantity's table. -/
def _insert_datapoint {V : Type} (s : LMState V) (name : String)
    (value : Option V) : LMState V :=
  match value with
  | none => s
  | some v =>
    { s with
      last_values := dictSet s.last_values name v,
      tables := fun n =>
        if n = name then s.tables n ++ [(s.tick_count, s.rank, v)]
        else s.tables n }

/-- Embedding of `LogManager._gather_for_descriptor` (lines 947-954): when
the tick count is a multiple of the interval, call the quantity and insert
its value(s); a `MultiLogQuantity`'s values are zipped with its names
(`strict=False`: the shorter list wins). -/
def _gather_for_descriptor {V : Type} (s : LMState V)
    (gd : GatherDescriptor V) : LMState V :=
  if s.tick_count % gd.interval = 0 then
    match gd.quantity.kind with
    | .single name _ _ _ f => _insert_datapoint s name (f s.tick_count)
    | .multi names _ _ _ f =>
      (names.zip (f s.tick_count)).foldl
        (fun st nv => _insert_datapoint st nv.1 nv.2) s
  else s

/-- Embedding of `LogManager.tick_before` (lines 956-974): gather every
before-descriptor due at this tick.  `prepare_for_tick` on post quantities
is a hook whose base implementation is `pass`, and the forced `save()` of
the first three ticks is the identity on the modelled fields. -/
def tick_before {V : Type} (s : LMState V) : LMState V :=
  s.before_gather_descriptors.foldl _gather_for_descriptor s

/-- Embedding of `LogManager.tick_after` (lines 976-1008): after the
per-quantity `tick()` hooks (base implementation `pass`), gather every
after-descriptor due at this tick, then increment `tick_count`.  The
opportunistic `save()`, the watch printing and the `t_log` in-place
correction do not touch the modelled fields. -/
def tick_after {V : Type} (s : LMState V) : LMState V :=
  let s1 := s.after_gather_descriptors.foldl _gather_for_descriptor s
  { s1 with tick_count := s1.tick_count + 1 }

/-- One complete tick cycle: `tick_before` then `tick_after`. -/
def cycle {V : Type} (s : LMState V) : LMState V := tick_after (tick_before s)

/-- `n` complete tick cycles. -/
def cycles {V : Type} : Nat → LMState V → LMState V
  | 0, s => s
  | n + 1, s => cycles n (cycle s)

/-- The per-name registration items of `add_quantity`: for a single-valued
quantity its one `(name, unit, description, default_aggregator)` tuple, for
a multi-valued quantity the zip of its four lists (`strict=False`: truncated
to the shortest). -/
def quantityItems {V : Type} (q : Quantity V) :
    List (String × Option String × Option String × Option String) :=
  match q.kind with
  | .single n u d a _ => [(n, u, d, a)]
  | .multi ns us ds ags _ =>
    (ns.zip (us.zip (ds.zip ags))).map
      (fun x => (x.1, x.2.1, x.2.2.1, x.2.2.2))

/-- The quantity's declared names (all of them, before zip truncation). -/
def qNames {V : Type} (q : Quantity V) : List String :=
  match q.kind with
  | .single n _ _ _ _ => [n]
  | .multi ns _ _ _ _ => ns

/-- The inner `add_internal` of `add_quantity`, iterated over the items in
order.  A duplicate name raises `RuntimeError` — modelled by the `true`
error flag — before mutating anything for the current item; mutations for
earlier items remain (the exception is not caught, no rollback happens). -/
def add_internals {V : Type} (s : LMState V) :
    List (String × Option String × Option String × Option String) →
      LMState V × Bool
  | [] => (s, false)
  | (n, u, d, a) :: rest =>
    if (dlook s.quantity_data n).isSome then (s, true)
    else
      add_internals
        { s with
          quantity_data := s.quantity_data ++ [(n, ⟨u, d, a⟩)],
          db_tables := s.db_tables ++ [n] } rest

/-- Stable insertion of a descriptor into a weight-sorted list: it lands
after every element of not-larger weight, as Python's stable sort puts it. -/
def insertSorted {V : Type} (gd : GatherDescriptor V) :
    List (GatherDescriptor V) → List (GatherDescriptor V)
  | [] => [gd]
  | x :: xs =>
    if x.quantity.sort_weight ≤ gd.quantity.sort_weight then
      x :: insertSorted gd xs
    else gd :: x :: xs

/-- Stable sort by `sort_weight`: Python's `list.sort(key=...)` is stable,
and every stable sort computes the same list. -/
def sortByWeight {V : Type} (l : List (GatherDescriptor V)) :
    List (GatherDescriptor V) :=
  l.foldl (fun acc gd => insertSorted gd acc) []

/-- Embedding of `LogManager.add_quantity` (lines 1049-1092): the descriptor
is appended to the before- or after-list and the list is re-sorted *before*
the per-name registrations run; then each name is registered via
`add_internal` (duplicate name: `RuntimeError`).  The final `save()` is the
identity on the modelled fields. -/
def add_quantity {V : Type} (s : LMState V) (q : Quantity V) (interval : Nat) :
    LMState V × Bool :=
  if q.isPost then
    add_internals
      { s with after_gather_descriptors :=
          sortByWeight (s.after_gather_descriptors ++ [⟨q, interval⟩]) }
      (quantityItems q)
  else
    add_internals
      { s with before_gather_descriptors :=
          sortByWeight (s.before_gather_descriptors ++ [⟨q, interval⟩]) }
      (quantityItems q)

/-! ### Frame lemmas for the tick engine -/

/-- The fields of the state that sampling and ticking never modify:
rank, descriptor lists, quantity metadata, created tables. -/
def SameCore {V : Type} (s t : LMState V) : Prop :=
  t.rank = s.rank
  ∧ t.before_gather_descriptors = s.before_gather_descriptors
  ∧ t.after_gather_descriptors = s.after_gather_descriptors
  ∧ t.quantity_data = s.quantity_data
  ∧ t.db_tables = s.db_tables

theorem sameCore_refl {V : Type} (s : LMState V) : SameCore s s :=
  ⟨rfl, rfl, rfl, rfl, rfl⟩

theorem sameCore_trans {V : Type} {s t u : LMState V}
    (h₁ : SameCore s t) (h₂ : SameCore t u) : SameCore s u :=
  ⟨h₂.1.trans h₁.1, h₂.2.1.trans h₁.2.1, h₂.2.2.1.trans h₁.2.2.1,
    h₂.2.2.2.1.trans h₁.2.2.2.1, h₂.2.2.2.2.trans h₁.2.2.2.2⟩

theorem sameCore_insert {V : Type} (s : LMState V) (n : String)
    (v : Option V) : SameCore s (_insert_datapoint s n v) := by
  cases v <;> exact ⟨rfl, rfl, rfl, rfl, rfl⟩

theorem tickCount_insert {V : Type} (s : LMState V) (n : String)
    (v : Option V) : (_insert_datapoint s n v).tick_count = s.tick_count := by
  cases v <;> rfl

theorem sameCore_insert_foldl {V : Type} (l : List (String × Option V)) :
    ∀ s : LMState V,
      SameCore s (l.foldl (fun st nv => _insert_datapoint st nv.1 nv.2) s) := by
  induction l with
  | nil => exact fun s => sameCore_refl s
  | cons x xs ih =>
    intro s
    exact sameCore_trans (sameCore_insert s x.1 x.2) (ih _)

theorem tickCount_insert_foldl {V : Type} (l : List (String × Option V)) :
    ∀ s : LMState V,
      (l.foldl (fun st nv => _insert_datapoint st nv.1 nv.2) s).tick_count
        = s.tick_count := by
  induction l with
  | nil => exact fun _ => rfl
  | cons x xs ih =>
    intro s
    rw [List.foldl_cons, ih, tickCount_insert]

theorem sameCore_gather {V : Type} (s : LMState V) (gd : GatherDescriptor V) :
    SameCore s (_gather_for_descriptor s gd) := by
  unfold _gather_for_descriptor
  by_cases h : s.tick_count % gd.interval = 0
  · rw [if_pos h]
    cases hk : gd.quantity.kind with
    | single n u d a f => exact sameCore_insert s n (f s.tick_count)
    | multi ns us ds ags f => exact sameCore_insert_foldl _ s
  · rw [if_neg h]
    exact sameCore_refl s

theorem tickCount_gather {V : Type} (s : LMState V) (gd : GatherDescriptor V) :
    (_gather_for_descriptor s gd).tick_count = s.tick_count := by
  unfold _gather_for_descriptor
  by_cases h : s.tick_count % gd.interval = 0
  · rw [if_pos h]
    cases hk : gd.quantity.kind with
    | single n u d a f => exact tickCount_insert s n (f s.tick_count)
    | multi ns us ds ags f => exact tickCount_insert_foldl _ s
  · rw [if_neg h]

theorem sameCore_gather_foldl {V : Type} (gds : List (GatherDescriptor V)) :
    ∀ s : LMState V, SameCore s (gds.foldl _gather_for_descriptor s) := by
  induction gds with
  | nil => exact fun s => sameCore_refl s
  | cons gd rest ih =>
    intro s
    exact sameCore_trans (sameCore_gather s gd) (ih _)

theorem tickCount_gather_foldl {V : Type} (gds : List (GatherDescriptor V)) :
    ∀ s : LMState V,
      (gds.foldl _gather_for_descriptor s).tick_count = s.tick_count := by
  induction gds with
  | nil => exact fun _ => rfl
  | cons gd rest ih =>
    intro s
    rw [List.foldl_cons, ih, tickCount_gather]

theorem sameCore_tick_before {V : Type} (s : LMState V) :
    SameCore s (tick_before s) :=
  sameCore_gather_foldl _ s

theorem tickCount_tick_before {V : Type} (s : LMState V) :
    (tick_before s).tick_count = s.tick_count :=
  tickCount_gather_foldl _ s

theorem sameCore_tick_after {V : Type} (s : LMState V) :
    SameCore s (tick_after s) := by
  unfold tick_after
  have h := sameCore_gather_foldl s.after_gather_descriptors s
  exact ⟨h.1, h.2.1, h.2.2.1, h.2.2.2.1, h.2.2.2.2⟩

theorem tickCount_tick_after {V : Type} (s : LMState V) :
    (tick_after s).tick_count = s.tick_count + 1 := by
  show (List.foldl _gather_for_descriptor s s.after_gather_descriptors).tick_count
      + 1 = s.tick_count + 1
  rw [tickCount_gather_foldl]

theorem sameCore_cycle {V : Type} (s : LMState V) : SameCore s (cycle s) :=
  sameCore_trans (sameCore_tick_before s) (sameCore_tick_after _)

theorem tickCount_cycle {V : Type} (s : LMState V) :
    (cycle s).tick_count = s.tick_count + 1 := by
  unfold cycle
  rw [tickCount_tick_after, tickCount_tick_before]

theorem sameCore_cycles {V : Type} (n : Nat) :
    ∀ s : LMState V, SameCore s (cycles n s) := by
  induction n with
  | zero => exact fun s => sameCore_refl s
  | succ n ih =>
    intro s
    exact sameCore_trans (sameCore_cycle s) (ih _)

theorem tickCount_cycles {V : Type} (n : Nat) :
    ∀ s : LMState V, (cycles n s).tick_count = s.tick_count + n := by
  induction n with
  | zero => exact fun _ => rfl
  | succ n ih =>
    intro s
    show (cycles n (cycle s)).tick_count = s.tick_count + (n + 1)
    rw [ih, tickCount_cycle]
    omega

/-- C2: `tick_before` leaves `tick_count` unchanged, `tick_after` increments
it by exactly 1 (at its very end), so one complete cycle adds exactly 1,
`tick_count` never decreases, and from a fresh manager (`tick_count = 0`)
it equals `N` after `N` complete cycles. -/
theorem tick_count_after_n_cycles {V : Type} :
    (∀ s : LMState V, (tick_before s).tick_count = s.tick_count)
    ∧ (∀ s : LMState V, (tick_after s).tick_count = s.tick_count + 1)
    ∧ (∀ s : LMState V, (cycle s).tick_count = s.tick_count + 1)
    ∧ (∀ s : LMState V, s.tick_count ≤ (cycle s).tick_count)
    ∧ (∀ s : LMState V, s.tick_count = 0 → ∀ n : Nat,
        (cycles n s).tick_count = n) :=
  ⟨tickCount_tick_before, tickCount_tick_after, tickCount_cycle,
    fun s => by rw [tickCount_cycle]; omega,
    fun s h n => by rw [tickCount_cycles, h, Nat.zero_add]⟩

/-- An empty, freshly opened `LogManager` over `Nat` values. -/
def freshLM : LMState Nat :=
  ⟨[], [], [], [], 0, 0, [], fun _ => []⟩

theorem tick_count_after_n_cycles_witness :
    freshLM.tick_count = 0 ∧ (cycles 3 freshLM).tick_count = 3 :=
  ⟨rfl, tick_count_after_n_cycles.2.2.2.2 freshLM rfl 3⟩

/-! ### Tracking table rows and `last_values` through gathering -/

theorem tables_insert_other {V : Type} (s : LMState V) (name n : String)
    (v : Option V) (h : n ≠ name) :
    (_insert_datapoint s name v).tables n = s.tables n := by
  cases v with
  | none => rfl
  | some x =>
    show (if n = name then _ else s.tables n) = s.tables n
    rw [if_neg h]

theorem tables_insert_own {V : Type} (s : LMState V) (name : String)
    (v : Option V) :
    (_insert_datapoint s name v).tables name
      = s.tables name ++ (match v with
        | none => []
        | some x => [(s.tick_count, s.rank, x)]) := by
  cases v with
  | none => simp [_insert_datapoint]
  | some x =>
    show (if name = name then s.tables name ++ _ else _) = _
    rw [if_pos rfl]

theorem lastValues_insert_other {V : Type} (s : LMState V) (name n : String)
    (v : Option V) (h : n ≠ name) :
    dlook (_insert_datapoint s name v).last_values n = dlook s.last_values n := by
  cases v with
  | none => rfl
  | some x => exact dlook_dictSet_other _ _ _ _ h

theorem tables_foldl_insert_other {V : Type} (l : List (String × Option V)) :
    ∀ (s : LMState V) (n : String), (∀ nv ∈ l, nv.1 ≠ n) →
      (l.foldl (fun st nv => _insert_datapoint st nv.1 nv.2) s).tables n
        = s.tables n := by
  induction l with
  | nil => exact fun _ _ _ => rfl
  | cons x xs ih =>
    intro s n h
    rw [List.foldl_cons, ih _ n (fun nv hnv => h nv (List.mem_cons_of_mem x hnv)),
      tables_insert_other]
    exact fun e => h x (List.mem_cons_self x xs) e.symm

theorem lastValues_foldl_insert_other {V : Type} (l : List (String × Option V)) :
    ∀ (s : LMState V) (n : String), (∀ nv ∈ l, nv.1 ≠ n) →
      dlook (l.foldl (fun st nv => _insert_datapoint st nv.1 nv.2) s).last_values n
        = dlook s.last_values n := by
  induction l with
  | nil => exact fun _ _ _ => rfl
  | cons x xs ih =>
    intro s n h
    rw [List.foldl_cons, ih _ n (fun nv hnv => h nv (List.mem_cons_of_mem x hnv)),
      lastValues_insert_other]
    exact fun e => h x (List.mem_cons_self x xs) e.symm

theorem tables_gather_other {V : Type} (s : LMState V) (gd : GatherDescriptor V)
    (n : String) (h : n ∉ qNames gd.quantity) :
    (_gather_for_descriptor s gd).tables n = s.tables n := by
  unfold _gather_for_descriptor
  by_cases hdue : s.tick_count % gd.interval = 0
  · rw [if_pos hdue]
    cases hk : gd.quantity.kind with
    | single nm u d a f =>
      apply tables_insert_other
      simp only [qNames, hk, List.mem_singleton] at h
      exact h
    | multi ns us ds ags f =>
      apply tables_foldl_insert_other
      intro nv hnv e
      simp only [qNames, hk] at h
      exact h (e ▸ (List.of_mem_zip hnv).1)
  · rw [if_neg hdue]

theorem lastValues_gather_other {V : Type} (s : LMState V)
    (gd : GatherDescriptor V) (n : String) (h : n ∉ qNames gd.quantity) :
    dlook (_gather_for_descriptor s gd).last_values n = dlook s.last_values n := by
  unfold _gather_for_descriptor
  by_cases hdue : s.tick_count % gd.interval = 0
  · rw [if_pos hdue]
    cases hk : gd.quantity.kind with
    | single nm u d a f =>
      apply lastValues_insert_other
      simp only [qNames, hk, List.mem_singleton] at h
      exact h
    | multi ns us ds ags f =>
      apply lastValues_foldl_insert_other
      intro nv hnv e
      simp only [qNames, hk] at h
      exact h (e ▸ (List.of_mem_zip hnv).1)
  · rw [if_neg hdue]

theorem tables_gather_single_own {V : Type} (s : LMState V)
    (gd : GatherDescriptor V) (nm : String) (u d a : Option String)
    (f : Nat → Option V) (hk : gd.quantity.kind = .single nm u d a f) :
    (_gather_for_descriptor s gd).tables nm
      = s.tables nm ++ (if s.tick_count % gd.interval = 0 then
          (match f s.tick_count with
           | none => []
           | some x => [(s.tick_count, s.rank, x)])
        else []) := by
  unfold _gather_for_descriptor
  by_cases hdue : s.tick_count % gd.interval = 0
  · rw [if_pos hdue, if_pos hdue, hk]
    exact tables_insert_own s nm (f s.tick_count)
  · rw [if_neg hdue, if_neg hdue, List.append_nil]

/-- A due single quantity whose sample is `None` leaves the whole state
untouched (`_insert_datapoint` returns before setting `last_values`). -/
theorem gather_single_none {V : Type} (s : LMState V) (gd : GatherDescriptor V)
    (nm : String) (u d a : Option String) (f : Nat → Option V)
    (hk : gd.quantity.kind = .single nm u d a f)
    (hnone : f s.tick_count = none) :
    _gather_for_descriptor s gd = s := by
  unfold _gather_for_descriptor
  by_cases hdue : s.tick_count % gd.interval = 0
  · rw [if_pos hdue, hk]
    show _insert_datapoint s nm (f s.tick_count) = s
    rw [hnone]
    rfl
  · rw [if_neg hdue]

theorem tables_gather_foldl_other {V : Type} (gds : List (GatherDescriptor V)) :
    ∀ (s : LMState V) (n : String), (∀ gd ∈ gds, n ∉ qNames gd.quantity) →
      (gds.foldl _gather_for_descriptor s).tables n = s.tables n := by
  induction gds with
  | nil => exact fun _ _ _ => rfl
  | cons gd rest ih =>
    intro s n h
    rw [List.foldl_cons, ih _ n (fun g hg => h g (List.mem_cons_of_mem gd hg)),
      tables_gather_other _ _ _ (h gd (List.mem_cons_self gd rest))]

theorem lastValues_gather_foldl_other {V : Type}
    (gds : List (GatherDescriptor V)) :
    ∀ (s : LMState V) (n : String), (∀ gd ∈ gds, n ∉ qNames gd.quantity) →
      dlook (gds.foldl _gather_for_descriptor s).last_values n
        = dlook s.last_values n := by
  induction gds with
  | nil => exact fun _ _ _ => rfl
  | cons gd rest ih =>
    intro s n h
    rw [List.foldl_cons, ih _ n (fun g hg => h g (List.mem_cons_of_mem gd hg)),
      lastValues_gather_other _ _ _ (h gd (List.mem_cons_self gd rest))]

theorem cycles_succ_right {V : Type} (n : Nat) :
    ∀ s : LMState V, cycles (n + 1) s = cycle (cycles n s) := by
  induction n with
  | zero => exact fun _ => rfl
  | succ n ih => exact fun s => ih (cycle s)

/-- `gd` is a registered descriptor (in the before- or the after-phase list)
and no other registered descriptor declares the name `nm`. -/
def RegisteredUniquely {V : Type} (s : LMState V) (gd : GatherDescriptor V)
    (nm : String) : Prop :=
  (∃ L1 L2, s.before_gather_descriptors = L1 ++ gd :: L2
    ∧ (∀ g ∈ L1 ++ L2, nm ∉ qNames g.quantity)
    ∧ (∀ g ∈ s.after_gather_descriptors, nm ∉ qNames g.quantity))
  ∨ (∃ L1 L2, s.after_gather_descriptors = L1 ++ gd :: L2
    ∧ (∀ g ∈ L1 ++ L2, nm ∉ qNames g.quantity)
    ∧ (∀ g ∈ s.before_gather_descriptors, nm ∉ qNames g.quantity))

theorem registeredUniquely_of_sameCore {V : Type} {s t : LMState V}
    {gd : GatherDescriptor V} {nm : String} (h : SameCore s t)
    (hr : RegisteredUniquely s gd nm) : RegisteredUniquely t gd nm := by
  rcases hr with ⟨L1, L2, hb, hL, hA⟩ | ⟨L1, L2, ha, hL, hB⟩
  · exact Or.inl ⟨L1, L2, by rw [h.2.1, hb], hL, by rw [h.2.2.1]; exact hA⟩
  · exact Or.inr ⟨L1, L2, by rw [h.2.2.1, ha], hL, by rw [h.2.1]; exact hB⟩

/-- One complete cycle appends to a uniquely-registered single quantity's
table exactly the row for this tick when the quantity is due and returns a
value, and nothing otherwise. -/
theorem tables_cycle_single {V : Type} (s : LMState V) (gd : GatherDescriptor V)
    (nm : String) (u d a : Option String) (f : Nat → Option V)
    (hk : gd.quantity.kind = .single nm u d a f)
    (hreg : RegisteredUniquely s gd nm) :
    (cycle s).tables nm
      = s.tables nm ++ (if s.tick_count % gd.interval = 0 then
          (match f s.tick_count with
           | none => []
           | some x => [(s.tick_count, s.rank, x)])
        else []) := by
  rcases hreg with ⟨L1, L2, hb, hL, hA⟩ | ⟨L1, L2, ha, hL, hB⟩
  · -- gd sits in the before-phase list
    have hL1 : ∀ g ∈ L1, nm ∉ qNames g.quantity :=
      fun g hg => hL g (List.mem_append_left _ hg)
    have hL2 : ∀ g ∈ L2, nm ∉ qNames g.quantity :=
      fun g hg => hL g (List.mem_append_right _ hg)
    have htb : tick_before s
        = L2.foldl _gather_for_descriptor
            (_gather_for_descriptor (L1.foldl _gather_for_descriptor s) gd) := by
      show s.before_gather_descriptors.foldl _gather_for_descriptor s = _
      rw [hb, List.foldl_append, List.foldl_cons]
    have hcoreA := sameCore_gather_foldl L1 s
    have htcA := tickCount_gather_foldl L1 s
    have htabA := tables_gather_foldl_other L1 s nm hL1
    have htabB := tables_gather_single_own
      (L1.foldl _gather_for_descriptor s) gd nm u d a f hk
    rw [htabA, htcA, hcoreA.1] at htabB
    have htabC := tables_gather_foldl_other L2
      (_gather_for_descriptor (L1.foldl _gather_for_descriptor s) gd) nm hL2
    have hafter : (tick_before s).after_gather_descriptors
        = s.after_gather_descriptors := (sameCore_tick_before s).2.2.1
    have hta : (tick_after (tick_before s)).tables nm
        = (tick_before s).tables nm := by
      show ((tick_before s).after_gather_descriptors.foldl
        _gather_for_descriptor (tick_before s)).tables nm = _
      rw [hafter]
      exact tables_gather_foldl_other _ _ nm hA
    show (tick_after (tick_before s)).tables nm = _
    rw [hta, htb, htabC, htabB]
  · -- gd sits in the after-phase list
    have hL1 : ∀ g ∈ L1, nm ∉ qNames g.quantity :=
      fun g hg => hL g (List.mem_append_left _ hg)
    have hL2 : ∀ g ∈ L2, nm ∉ qNames g.quantity :=
      fun g hg => hL g (List.mem_append_right _ hg)
    have hcoreX := sameCore_tick_before s
    have htcX := tickCount_tick_before s
    have htabX : (tick_before s).tables nm = s.tables nm :=
      tables_gather_foldl_other _ s nm hB
    have hafter : (tick_before s).after_gather_descriptors
        = L1 ++ gd :: L2 := by rw [hcoreX.2.2.1, ha]
    have hcoreA := sameCore_gather_foldl L1 (tick_before s)
    have htcA := tickCount_gather_foldl L1 (tick_before s)
    have htabA := tables_gather_foldl_other L1 (tick_before s) nm hL1
    have htabB := tables_gather_single_own
      (L1.foldl _gather_for_descriptor (tick_before s)) gd nm u d a f hk
    rw [htabA, htcA, hcoreA.1, htabX, htcX, hcoreX.1] at htabB
    have htabC := tables_gather_foldl_other L2
      (_gather_for_descriptor
        (L1.foldl _gather_for_descriptor (tick_before s)) gd) nm hL2
    show ((tick_before s).after_gather_descriptors.foldl
      _gather_for_descriptor (tick_before s)).tables nm = _
    rw [hafter, List.foldl_append, List.foldl_cons, htabC, htabB]

/-- A uniquely-registered single quantity whose sample is `None` leaves its
`last_values` entry untouched over a whole cycle. -/
theorem lastValues_cycle_single_none {V : Type} (s : LMState V)
    (gd : GatherDescriptor V) (nm : String) (u d a : Option String)
    (f : Nat → Option V) (hk : gd.quantity.kind = .single nm u d a f)
    (hnone : f s.tick_count = none)
    (hreg : RegisteredUniquely s gd nm) :
    dlook (cycle s).last_values nm = dlook s.last_values nm := by
  rcases hreg with ⟨L1, L2, hb, hL, hA⟩ | ⟨L1, L2, ha, hL, hB⟩
  · have hL1 : ∀ g ∈ L1, nm ∉ qNames g.quantity :=
      fun g hg => hL g (List.mem_append_left _ hg)
    have hL2 : ∀ g ∈ L2, nm ∉ qNames g.quantity :=
      fun g hg => hL g (List.mem_append_right _ hg)
    have htb : tick_before s
        = L2.foldl _gather_for_descriptor
            (_gather_for_descriptor (L1.foldl _gather_for_descriptor s) gd) := by
      show s.before_gather_descriptors.foldl _gather_for_descriptor s = _
      rw [hb, List.foldl_append, List.foldl_cons]
    have htcA := tickCount_gather_foldl L1 s
    have hgd : _gather_for_descriptor (L1.foldl _gather_for_descriptor s) gd
        = L1.foldl _gather_for_descriptor s := by
      apply gather_single_none _ gd nm u d a f hk
      rw [htcA]
      exact hnone
    have hlvA := lastValues_gather_foldl_other L1 s nm hL1
    have hlvC := lastValues_gather_foldl_other L2
      (L1.foldl _gather_for_descriptor s) nm hL2
    have hafter : (tick_before s).after_gather_descriptors
        = s.after_gather_descriptors := (sameCore_tick_before s).2.2.1
    have hta : dlook (tick_after (tick_before s)).last_values nm
        = dlook (tick_before s).last_values nm := by
      show dlook ((tick_before s).after_gather_descriptors.foldl
        _gather_for_descriptor (tick_before s)).last_values nm = _
      rw [hafter]
      exact lastValues_gather_foldl_other _ _ nm hA
    show dlook (tick_after (tick_before s)).last_values nm = _
    rw [hta, htb, hgd, hlvC, hlvA]
  · have hL1 : ∀ g ∈ L1, nm ∉ qNames g.quantity :=
      fun g hg => hL g (List.mem_append_left _ hg)
    have hL2 : ∀ g ∈ L2, nm ∉ qNames g.quantity :=
      fun g hg => hL g (List.mem_append_right _ hg)
    have hcoreX := sameCore_tick_before s
    have htcX := tickCount_tick_before s
    have hlvX : dlook (tick_before s).last_values nm = dlook s.last_values nm :=
      lastValues_gather_foldl_other _ s nm hB
    have hafter : (tick_before s).after_gather_descriptors
        = L1 ++ gd :: L2 := by rw [hcoreX.2.2.1, ha]
    have htcA := tickCount_gather_foldl L1 (tick_before s)
    have hgd : _gather_for_descriptor
        (L1.foldl _gather_for_descriptor (tick_before s)) gd
        = L1.foldl _gather_for_descriptor (tick_before s) := by
      apply gather_single_none _ gd nm u d a f hk
      rw [htcA, htcX]
      exact hnone
    have hlvA := lastValues_gather_foldl_other L1 (tick_before s) nm hL1
    have hlvC := lastValues_gather_foldl_other L2
      (L1.foldl _gather_for_descriptor (tick_before s)) nm hL2
    show dlook ((tick_before s).after_gather_descriptors.foldl
      _gather_for_descriptor (tick_before s)).last_values nm = _
    rw [hafter, List.foldl_append, List.foldl_cons, hgd, hlvC, hlvA, hlvX]

/-! ### Counting rows: ⌈N/k⌉ multiples of k below N -/

theorem ceil_div_succ (k N : Nat) (hk : 1 ≤ k) :
    (N + 1 + k - 1) / k = (N + k - 1) / k + (if N % k = 0 then 1 else 0) := by
  have hk0 : 0 < k := hk
  have hqr : k * (N / k) + N % k = N := Nat.div_add_mod N k
  have hrlt : N % k < k := Nat.mod_lt N hk0
  by_cases h0 : N % k = 0
  · rw [if_pos h0]
    have e1 : N + 1 + k - 1 = k * (N / k) + k := by omega
    have e2 : N + k - 1 = k * (N / k) + (k - 1) := by omega
    rw [e1, e2, show k * (N / k) + k = k * (N / k + 1) by ring,
      Nat.mul_div_cancel_left _ hk0, Nat.mul_add_div hk0,
      Nat.div_eq_of_lt (show k - 1 < k by omega)]
  · rw [if_neg h0]
    have e1 : N + 1 + k - 1 = k * (N / k) + k + (N % k) := by omega
    have e2 : N + k - 1 = k * (N / k) + k + (N % k - 1) := by omega
    rw [e1, e2, show k * (N / k) + k = k * (N / k + 1) by ring,
      Nat.mul_add_div hk0, Nat.mul_add_div hk0,
      Nat.div_eq_of_lt (show N % k < k by omega),
      Nat.div_eq_of_lt (show N % k - 1 < k by omega)]

theorem length_filterMap_multiples {α : Type} (g : Nat → α) (k : Nat)
    (hk : 1 ≤ k) : ∀ N : Nat,
    ((List.range N).filterMap (fun t =>
      if t % k = 0 then some (g t) else none)).length = (N + k - 1) / k := by
  intro N
  induction N with
  | zero =>
    simp [Nat.div_eq_of_lt (show k - 1 < k by omega)]
  | succ N ih =>
    rw [List.range_succ, List.filterMap_append, List.length_append, ih,
      ceil_div_succ k N hk]
    congr 1
    by_cases h0 : N % k = 0
    · simp [List.filterMap, h0]
    · simp [List.filterMap, h0]

/-- C3: for a quantity registered (in either phase) with interval `k ≥ 1`
whose sampling callable always returns a value, after `N` complete tick
cycles its table holds exactly the rows for the ticks `t < N` with
`t % k = 0` (in tick order, tagged with the manager's rank), and hence
`⌈N/k⌉ = (N + k - 1) / k` rows. -/
theorem interval_sampling_rows {V : Type} (s : LMState V)
    (gd : GatherDescriptor V) (nm : String) (u d a : Option String)
    (f : Nat → Option V) (vf : Nat → V) (k : Nat)
    (hk : gd.quantity.kind = .single nm u d a f)
    (hintv : gd.interval = k) (hk1 : 1 ≤ k)
    (h0 : s.tick_count = 0) (ht0 : s.tables nm = [])
    (hf : ∀ t, f t = some (vf t))
    (hreg : RegisteredUniquely s gd nm) :
    ∀ N : Nat,
      (cycles N s).tables nm
        = (List.range N).filterMap (fun t =>
            if t % k = 0 then some (t, s.rank, vf t) else none)
      ∧ ((cycles N s).tables nm).length = (N + k - 1) / k := by
  have main : ∀ N : Nat, (cycles N s).tables nm
      = (List.range N).filterMap (fun t =>
          if t % k = 0 then some (t, s.rank, vf t) else none) := by
    intro N
    induction N with
    | zero => simpa using ht0
    | succ N ih =>
      rw [cycles_succ_right]
      have hregN := registeredUniquely_of_sameCore (sameCore_cycles N s) hreg
      have hstep := tables_cycle_single (cycles N s) gd nm u d a f hk hregN
      rw [tickCount_cycles, h0, Nat.zero_add, (sameCore_cycles N s).1, hintv,
        hf N] at hstep
      rw [hstep, ih, List.range_succ, List.filterMap_append]
      congr 1
      by_cases hNk : N % k = 0
      · simp [List.filterMap, hNk]
      · simp [List.filterMap, hNk]
  intro N
  refine ⟨main N, ?_⟩
  rw [main N]
  exact length_filterMap_multiples _ k hk1 N

/-- An interval-2 before-phase quantity `"a"` whose sample at tick `t` is `t`. -/
def qIntervalTwo : GatherDescriptor Nat :=
  ⟨⟨.single "a" none none none (fun t => some t), false, 0⟩, 2⟩

/-- A fresh manager with `qIntervalTwo` registered. -/
def sC3 : LMState Nat := ⟨[], [], [qIntervalTwo], [], 0, 0, [], fun _ => []⟩

theorem interval_sampling_rows_witness :
    (cycles 5 sC3).tables "a" = [(0, 0, 0), (2, 0, 2), (4, 0, 4)]
    ∧ ((cycles 5 sC3).tables "a").length = 3 := by
  have h := interval_sampling_rows sC3 qIntervalTwo "a" none none none
      (fun t => some t) (fun t => t) 2 rfl rfl (by decide) rfl rfl
      (fun t => rfl)
      (Or.inl ⟨[], [], rfl, fun g hg => absurd hg (List.not_mem_nil g),
        fun g hg => absurd hg (List.not_mem_nil g)⟩) 5
  exact ⟨h.1.trans rfl, h.2.trans rfl⟩

/-- C10: at a tick where a due, uniquely-registered quantity's callable
returns `None`, no row is inserted into its table and its `last_values`
entry is untouched, while the rest of the tick proceeds normally: the tick
still completes (`tick_count` goes up by one) and another due quantity
returning a value gets exactly its row. -/
theorem none_sample_skips_row {V : Type} (s : LMState V)
    (gd gd' : GatherDescriptor V) (nm nm' : String)
    (u d a u' d' a' : Option String) (f f' : Nat → Option V) (v' : V)
    (hk : gd.quantity.kind = .single nm u d a f)
    (hk' : gd'.quantity.kind = .single nm' u' d' a' f')
    (hreg : RegisteredUniquely s gd nm)
    (hreg' : RegisteredUniquely s gd' nm')
    (hdue : s.tick_count % gd.interval = 0)
    (hnone : f s.tick_count = none)
    (hdue' : s.tick_count % gd'.interval = 0)
    (hsome : f' s.tick_count = some v') :
    (cycle s).tables nm = s.tables nm
    ∧ dlook (cycle s).last_values nm = dlook s.last_values nm
    ∧ (cycle s).tick_count = s.tick_count + 1
    ∧ (cycle s).tables nm' = s.tables nm' ++ [(s.tick_count, s.rank, v')] := by
  refine ⟨?_, ?_, ?_, ?_⟩
  · have h := tables_cycle_single s gd nm u d a f hk hreg
    rw [if_pos hdue, hnone] at h
    simpa using h
  · exact lastValues_cycle_single_none s gd nm u d a f hk hnone hreg
  · exact tickCount_cycle s
  · have h := tables_cycle_single s gd' nm' u' d' a' f' hk' hreg'
    rw [if_pos hdue', hsome] at h
    exact h

/-- A before-phase quantity `"n"` that always returns `None`. -/
def gdNone : GatherDescriptor Nat :=
  ⟨⟨.single "n" none none none (fun _ => none), false, 0⟩, 1⟩

/-- An after-phase quantity `"p"` sampling `t + 10` at tick `t`. -/
def gdPost : GatherDescriptor Nat :=
  ⟨⟨.single "p" none none none (fun t => some (t + 10)), true, 0⟩, 1⟩

/-- A manager at tick 0 with `gdNone` and `gdPost` registered and a stale
`last_values` entry for `"n"`. -/
def sC10 : LMState Nat := ⟨[], [("n", 42)], [gdNone], [gdPost], 0, 0, [], fun _ => []⟩

theorem none_sample_skips_row_witness :
    (cycle sC10).tables "n" = []
    ∧ dlook (cycle sC10).last_values "n" = some 42
    ∧ (cycle sC10).tick_count = 1
    ∧ (cycle sC10).tables "p" = [(0, 0, 10)] := by
  have h := none_sample_skips_row sC10 gdNone gdPost "n" "p"
      none none none none none none (fun _ => none) (fun t => some (t + 10)) 10
      rfl rfl
      (Or.inl ⟨[], [], rfl, fun g hg => absurd hg (List.not_mem_nil g),
        by
          intro g hg
          have hgp : g = gdPost := by simpa [sC10] using hg
          subst hgp
          simp [qNames, gdPost]⟩)
      (Or.inr ⟨[], [], rfl, fun g hg => absurd hg (List.not_mem_nil g),
        by
          intro g hg
          have hgn : g = gdNone := by simpa [sC10] using hg
          subst hgn
          simp [qNames, gdNone]⟩)
      rfl rfl rfl rfl
  exact ⟨h.1.trans rfl, (h.2.1).trans rfl, h.2.2.1, (h.2.2.2).trans rfl⟩

/-! ### Registration (`LogManager.add_quantity`) -/

theorem dlook_append_left {V : Type} (d l : List (String × V)) (n : String)
    (h : (dlook d n).isSome) : dlook (d ++ l) n = dlook d n := by
  induction d with
  | nil => simp [dlook] at h
  | cons r rest ih =>
    obtain ⟨k, w⟩ := r
    by_cases hk : k = n
    · simp [dlook, hk]
    · simp only [dlook, if_neg hk] at h
      simp only [List.cons_append, dlook]
      rw [if_neg hk, if_neg hk]
      exact ih h

theorem add_internals_error {V : Type}
    (items : List (String × Option String × Option String × Option String)) :
    ∀ s : LMState V, (∃ it ∈ items, (dlook s.quantity_data it.1).isSome) →
      (add_internals s items).2 = true := by
  induction items with
  | nil =>
    intro s h
    exact absurd h (by simp)
  | cons it rest ih =>
    intro s h
    obtain ⟨n, u, d, a⟩ := it
    by_cases hdup : (dlook s.quantity_data n).isSome
    · simp [add_internals, hdup]
    · obtain ⟨it', hit', hsome⟩ := h
      rcases List.mem_cons.1 hit' with rfl | hmem
      · exact absurd hsome hdup
      · have hsome' : (dlook (s.quantity_data ++ [(n, ⟨u, d, a⟩)]) it'.1).isSome := by
          rw [dlook_append_left _ _ _ hsome]
          exact hsome
        simp only [add_internals, hdup, Bool.false_eq_true, if_false]
        exact ih _ ⟨it', hmem, hsome'⟩

/-- C4 (amended): registering a quantity fails with `RuntimeError` whenever
one of its *effective* registration items — all of them for a single-valued
quantity, the zip-truncated items for a multi-valued one — carries an
already-registered name, regardless of the order of prior registrations. -/
theorem add_quantity_duplicate_fails {V : Type} (s : LMState V)
    (q : Quantity V) (interval : Nat)
    (h : ∃ it ∈ quantityItems q, (dlook s.quantity_data it.1).isSome) :
    (add_quantity s q interval).2 = true := by
  unfold add_quantity
  by_cases hpost : q.isPost
  · rw [if_pos hpost]
    exact add_internals_error _ _ h
  · rw [if_neg hpost]
    exact add_internals_error _ _ h

/-- A single-valued quantity named `"a"`. -/
def qA : Quantity Nat := ⟨.single "a" none none none (fun _ => some 0), false, 0⟩

theorem add_quantity_duplicate_fails_witness :
    (add_quantity (add_quantity freshLM qA 1).1 qA 1).2 = true :=
  add_quantity_duplicate_fails _ qA 1
    ⟨("a", none, none, none), by simp [quantityItems, qA], rfl⟩

/-- A single-valued quantity named `"b"`. -/
def qB : Quantity Nat := ⟨.single "b" none none none (fun _ => some 0), false, 0⟩

/-- A multi-valued quantity declaring the names `["a", "b"]` but with a
one-element `units` list, as `MultiLogQuantity(names, units)` permits. -/
def qMultiTrunc : Quantity Nat :=
  ⟨.multi ["a", "b"] [some "u"] [none, none] [none, none]
    (fun _ => [some 0, some 0]), false, 0⟩

/-- C4 counterexample: `"b"` is already registered and is among the new
multi-valued quantity's names, yet `add_quantity` reports no error — the
`zip(..., strict=False)` in `add_quantity` silently truncates the items to
the shortest metadata list, so the duplicate name `"b"` is never checked
(nor registered). -/
theorem add_quantity_duplicate_missed_cex :
    (dlook (add_quantity freshLM qB 1).1.quantity_data "b").isSome = true
    ∧ "b" ∈ qNames qMultiTrunc
    ∧ (add_quantity (add_quantity freshLM qB 1).1 qMultiTrunc 1).2 = false := by
  refine ⟨rfl, ?_, rfl⟩
  simp [qNames, qMultiTrunc]

theorem mem_insertSorted {V : Type} (gd x : GatherDescriptor V)
    (l : List (GatherDescriptor V)) :
    x ∈ insertSorted gd l ↔ x = gd ∨ x ∈ l := by
  induction l with
  | nil => simp [insertSorted]
  | cons y ys ih =>
    unfold insertSorted
    by_cases hc : y.quantity.sort_weight ≤ gd.quantity.sort_weight
    · rw [if_pos hc]
      simp only [List.mem_cons, ih]
      tauto
    · rw [if_neg hc]
      simp only [List.mem_cons]

theorem mem_sortByWeight {V : Type} (l : List (GatherDescriptor V))
    (x : GatherDescriptor V) : x ∈ sortByWeight l ↔ x ∈ l := by
  suffices hgen : ∀ acc : List (GatherDescriptor V),
      (x ∈ l.foldl (fun acc gd => insertSorted gd acc) acc ↔ x ∈ acc ∨ x ∈ l) by
    have := hgen []
    simpa [sortByWeight] using this
  induction l with
  | nil => simp
  | cons gd rest ih =>
    intro acc
    rw [List.foldl_cons, ih, mem_insertSorted]
    simp only [List.mem_cons]
    tauto

/-- C5 counterexample: after a failed duplicate registration the
gather-descriptor appended by the failing call is still in force — the
before-phase descriptor list has two entries for the same quantity. -/
theorem add_quantity_failed_descriptor_remains_cex :
    (add_quantity (add_quantity freshLM qA 1).1 qA 1).2 = true
    ∧ ((add_quantity (add_quantity freshLM qA 1).1 qA 1).1.before_gather_descriptors).length
        = 2 :=
  ⟨rfl, rfl⟩

/-- C5 (amended): a duplicate single-valued registration creates no table,
no metadata entry, touches no rows, `last_values` or `tick_count` — but the
gather descriptor appended before the name check stays in the descriptor
list (there is no rollback). -/
theorem add_quantity_duplicate_partial_state {V : Type} (s : LMState V)
    (q : Quantity V) (nm : String) (u d a : Option String)
    (f : Nat → Option V) (interval : Nat)
    (hq : q.kind = .single nm u d a f)
    (hdup : (dlook s.quantity_data nm).isSome) :
    (add_quantity s q interval).2 = true
    ∧ (add_quantity s q interval).1.quantity_data = s.quantity_data
    ∧ (add_quantity s q interval).1.db_tables = s.db_tables
    ∧ (add_quantity s q interval).1.tables = s.tables
    ∧ (add_quantity s q interval).1.last_values = s.last_values
    ∧ (add_quantity s q interval).1.tick_count = s.tick_count
    ∧ (⟨q, interval⟩ : GatherDescriptor V) ∈
        (add_quantity s q interval).1.before_gather_descriptors
          ++ (add_quantity s q interval).1.after_gather_descriptors := by
  have hitems : quantityItems q = [(nm, u, d, a)] := by
    unfold quantityItems
    rw [hq]
  have hres : ∀ t : LMState V, (dlook t.quantity_data nm).isSome →
      add_internals t [(nm, u, d, a)] = (t, true) := by
    intro t ht
    simp [add_internals, ht]
  unfold add_quantity
  rw [hitems]
  by_cases hpost : q.isPost
  · rw [if_pos hpost,
      hres { s with after_gather_descriptors :=
        sortByWeight (s.after_gather_descriptors ++ [⟨q, interval⟩]) } hdup]
    refine ⟨rfl, rfl, rfl, rfl, rfl, rfl, ?_⟩
    apply List.mem_append_right
    rw [mem_sortByWeight]
    exact List.mem_append_right _ (by simp)
  · rw [if_neg hpost,
      hres { s with before_gather_descriptors :=
        sortByWeight (s.before_gather_descriptors ++ [⟨q, interval⟩]) } hdup]
    refine ⟨rfl, rfl, rfl, rfl, rfl, rfl, ?_⟩
    apply List.mem_append_left
    rw [mem_sortByWeight]
    exact List.mem_append_right _ (by simp)

theorem add_quantity_duplicate_partial_state_witness :
    (add_quantity (add_quantity freshLM qA 1).1 qA 1).2 = true
    ∧ (add_quantity (add_quantity freshLM qA 1).1 qA 1).1.quantity_data
        = (add_quantity freshLM qA 1).1.quantity_data
    ∧ (add_quantity (add_quantity freshLM qA 1).1 qA 1).1.db_tables
        = (add_quantity freshLM qA 1).1.db_tables
    ∧ (add_quantity (add_quantity freshLM qA 1).1 qA 1).1.tables
        = (add_quantity freshLM qA 1).1.tables
    ∧ (add_quantity (add_quantity freshLM qA 1).1 qA 1).1.last_values
        = (add_quantity freshLM qA 1).1.last_values
    ∧ (add_quantity (add_quantity freshLM qA 1).1 qA 1).1.tick_count
        = (add_quantity freshLM qA 1).1.tick_count
    ∧ (⟨qA, 1⟩ : GatherDescriptor Nat) ∈
        (add_quantity (add_quantity freshLM qA 1).1 qA 1).1.before_gather_descriptors
          ++ (add_quantity (add_quantity freshLM qA 1).1 qA 1).1.after_gather_descriptors :=
  add_quantity_duplicate_partial_state (add_quantity freshLM qA 1).1 qA
    "a" none none none (fun _ => some 0) 1 rfl rfl

/-! ## The magic-SQL mangler (`MagicRunDB.mangle_sql`, runalyzer.py 194-278)

Queries are modelled as `List Char`.  `str.upper` is `Char.toUpper`
character-wise (the SQL strings involved are ASCII).  Python's
`magic_columns` is a `set`, whose iteration order is unspecified; it is
modelled as a deduplicating list, fixing one order.  The string returned by
`get_rank_agg_table(qty, agg)` is `"rankagg_{agg}_{qty}"`; its temporary
table and index creation are database side effects without influence on the
returned query text. -/

def isAlphaChar (c : Char) : Bool :=
  ('a' ≤ c && c ≤ 'z') || ('A' ≤ c && c ≤ 'Z')

def isDigitChar (c : Char) : Bool := '0' ≤ c && c ≤ '9'

/-- `\w` over ASCII: `[a-zA-Z0-9_]`. -/
def isWordChar (c : Char) : Bool := isAlphaChar c || isDigitChar c || c = '_'

def isLowerAZ (c : Char) : Bool := 'a' ≤ c && c ≤ 'z'

def startsWith : List Char → List Char → Bool
  | [], _ => true
  | _ :: _, [] => false
  | a :: as_, b :: bs => a == b && startsWith as_ bs

/-- Python's `needle in haystack` substring test. -/
def containsSub (needle : List Char) : List Char → Bool
  | [] => startsWith needle []
  | c :: rest => startsWith needle (c :: rest) || containsSub needle rest

/-- `magic_columns.add(...)`: a Python `set` keeps one copy of each element
(iteration order here: first occurrence first). -/
def insertCol (col : List Char × Option (List Char))
    (cols : List (List Char × Option (List Char))) :
    List (List Char × Option (List Char)) :=
  if col ∈ cols then cols else col :: cols

/-- The scan-and-substitute of
`magic_column_re = re.compile(r"\$([a-zA-Z][A-Za-z0-9_]*)(\.[a-z]*)?")` with
`replace_magic_column`: each magic token is replaced by
`"{agg}_{qty}.value AS {qty}"` (aggregated) or `"{qty}.value AS {qty}"`
(bare), collecting the referenced `(qty, agg?)` pairs.  Leftmost,
non-overlapping, exactly as `re.subn` scans.  The fuel argument bounds the
recursion; one unit per scanned position suffices. -/
def scanMagicAux :
    Nat → List Char → List Char × List (List Char × Option (List Char))
  | 0, l => (l, [])
  | _ + 1, [] => ([], [])
  | fuel + 1, '$' :: rest =>
    match rest with
    | [] => (['$'], [])
    | c :: rest1 =>
      if isAlphaChar c then
        let ident := c :: rest1.takeWhile isWordChar
        let rest2 := rest1.dropWhile isWordChar
        match rest2 with
        | '.' :: rest3 =>
          let agg := rest3.takeWhile isLowerAZ
          let rest4 := rest3.dropWhile isLowerAZ
          let (tl, cols) := scanMagicAux fuel rest4
          (agg ++ '_' :: ident ++ ".value AS ".toList ++ ident ++ tl,
            insertCol (ident, some agg) cols)
        | _ =>
          let (tl, cols) := scanMagicAux fuel rest2
          (ident ++ ".value AS ".toList ++ ident ++ tl,
            insertCol (ident, none) cols)
      else
        let (tl, cols) := scanMagicAux fuel (c :: rest1)
        ('$' :: tl, cols)
  | fuel + 1, c :: rest =>
    let (tl, cols) := scanMagicAux fuel rest
    (c :: tl, cols)

def scanMagic (l : List Char) :
    List Char × List (List Char × Option (List Char)) :=
  scanMagicAux (l.length + 1) l

/-- The `inner join` chain of the generated FROM clause, with `last_tbl`
threading the join predicates. -/
def joinClause :
    List (List Char × Option (List Char)) → Option (List Char) → List Char
  | [], _ => []
  | (tbl, some agg) :: rest, last_tbl =>
    let full_tbl := agg ++ '_' :: tbl
    let full_tbl_src :=
      "rankagg_".toList ++ agg ++ '_' :: tbl ++ " as ".toList ++ full_tbl
    let addendum :=
      match last_tbl with
      | some lt => " and ".toList ++ lt ++ ".step = ".toList ++ full_tbl
          ++ ".step".toList
      | none => []
    " inner join ".toList ++ full_tbl_src ++ " on (".toList ++ full_tbl
      ++ ".run_id = runs.id".toList ++ addendum ++ ") ".toList
      ++ joinClause rest (some full_tbl)
  | (tbl, none) :: rest, last_tbl =>
    let addendum :=
      match last_tbl with
      | some lt => " and ".toList ++ lt ++ ".step = ".toList ++ tbl
          ++ ".step and ".toList ++ lt ++ ".rank=".toList ++ tbl
          ++ ".rank".toList
      | none => []
    " inner join ".toList ++ tbl ++ " on (".toList ++ tbl
      ++ ".run_id = runs.id".toList ++ addendum ++ ") ".toList
      ++ joinClause rest (some tbl)

def fromClause (cols : List (List Char × Option (List Char))) : List Char :=
  "from runs ".toList ++ joinClause cols none

/-- A `\b` of `re` sits between two positions whose word-char-ness differs
(out of range counts as non-word). -/
def boundaryBetween (a b : Option Char) : Bool :=
  (match a with | none => false | some c => isWordChar c)
    != (match b with | none => false | some c => isWordChar c)

/-- `re.search(rf"\b{w}\b", l)` matches at index `i`. -/
def matchWordAt (w : List Char) (l : List Char) (i : Nat) : Bool :=
  startsWith w (l.drop i)
    && boundaryBetween (if i = 0 then none else l.get? (i - 1)) (l.get? i)
    && boundaryBetween (l.get? (i + w.length - 1)) (l.get? (i + w.length))

/-- Leftmost match index of `\b{w}\b`, as `re.search().start()`. -/
def findWordIdx (w : List Char) (l : List Char) : Option Nat :=
  (List.range (l.length + 1)).find? (fun i => matchWordAt w l i)

/-- The trailing-clause keywords of `get_clause_indices` (runalyzer.py
250-261). -/
def otherClauses : List (List Char) :=
  ["UNION".toList, "INTERSECT".toList, "EXCEPT".toList, "WHERE".toList,
    "GROUP".toList, "HAVING".toList, "ORDER".toList, "LIMIT".toList,
    ";".toList]

/-- `min(get_clause_indices(qry).values())`, or `none` when no clause
keyword occurs (searched in the uppercased query). -/
def minClauseIdx (l : List Char) : Option Nat :=
  match otherClauses.filterMap (fun w => findWordIdx w (l.map Char.toUpper)) with
  | [] => none
  | x :: xs => some (xs.foldl min x)

/-- Python `str.replace("$$", repl)`: all non-overlapping occurrences, left
to right. -/
def replaceDollarDollar (repl : List Char) : List Char → List Char
  | '$' :: '$' :: rest => repl ++ replaceDollarDollar repl rest
  | c :: rest => c :: replaceDollarDollar repl rest
  | [] => []

/-- Embedding of `MagicRunDB.mangle_sql` (runalyzer.py 195-278):

1. if the uppercased query contains `FROM` and no `$$`, return it unchanged;
2. substitute every magic `$name[.agg]` token, collecting the referenced
   columns;
3. build `from runs` plus one `inner join` per referenced column;
4. splice the FROM clause at `$$` if present, else before the first
   trailing-clause keyword, else at the end. -/
def mangle_sql (qry : List Char) : List Char :=
  if containsSub "FROM".toList (qry.map Char.toUpper)
      && !(containsSub "$$".toList (qry.map Char.toUpper)) then qry
  else
    let scanned := scanMagic qry
    let from_clause := fromClause scanned.2
    if containsSub "$$".toList scanned.1 then
      replaceDollarDollar (' ' :: from_clause ++ [' ']) scanned.1
    else
      match minClauseIdx scanned.1 with
      | none => scanned.1 ++ ' ' :: from_clause
      | some i => scanned.1.take i ++ from_clause ++ scanned.1.drop i

/-- C6 counterexample: `"select 17"` contains no magic `$`-token, yet
`mangle_sql` does not return it unchanged — lacking a FROM keyword, the
query gets `" from runs "` appended. -/
theorem mangle_sql_no_magic_changed_cex :
    (scanMagic "select 17".toList).2 = []
    ∧ mangle_sql "select 17".toList = "select 17 from runs ".toList
    ∧ mangle_sql "select 17".toList ≠ "select 17".toList := by
  refine ⟨rfl, ?_, ?_⟩ <;> decide

/-- C6 (amended): a query whose uppercased text contains a `FROM` keyword
and no `$$` marker — in particular any such query without magic
`$`-tokens — is returned unchanged by `mangle_sql`. -/
theorem mangle_sql_from_unchanged (qry : List Char)
    (hnotok : (scanMagic qry).2 = [])
    (hfrom : containsSub "FROM".toList (qry.map Char.toUpper) = true)
    (hnodd : containsSub "$$".toList (qry.map Char.toUpper) = false) :
    mangle_sql qry = qry := by
  unfold mangle_sql
  rw [hfrom, hnodd]
  rfl

theorem mangle_sql_from_unchanged_witness :
    mangle_sql "select x from runs".toList = "select x from runs".toList :=
  mangle_sql_from_unchanged _ (by decide) (by decide) (by decide)

/-! ## The merge-join (`_join_by_first_of_tuple`, __init__.py 309-348)

The generator keeps, per input iterable, a current `(key, value)` pair and
the not-yet-consumed rest; plus the round-robin index `i`, `target_key` and
`force_advance`.  The index is modelled as a zipper (`left`/`cur`/`right`),
so channel `i` is `cur` and the channel order `left ++ cur :: right` is the
input order.  One fuel unit is spent per executed micro-step: an inner
`while`-body advance of channel `i`, or one outer step (`i` rotation plus
min-check and possible yield). -/

/-- One input iterator's state: the current `(key, value)` pair and the
remaining pairs. -/
abbrev Chan (α : Type) := (Nat × α) × List (Nat × α)

def chanKey {α : Type} (c : Chan α) : Nat := c.1.1

/-- The whole remaining sequence a channel stands for. -/
def chanSeq {α : Type} (c : Chan α) : List (Nat × α) := c.1 :: c.2

structure JoinState (α : Type) where
  left : List (Chan α)
  cur : Chan α
  right : List (Chan α)
  target : Nat
  force : Bool

/-- The channels in input order. -/
def chans {α : Type} (st : JoinState α) : List (Chan α) :=
  st.left ++ st.cur :: st.right

/-- `min(keys)` (the channel list is never empty: `cur` seeds the fold). -/
def minKeys {α : Type} (st : JoinState α) : Nat :=
  (st.left ++ st.right).foldl (fun m c => min m (chanKey c)) (chanKey st.cur)

/-- `values[:]`, in channel (input) order. -/
def chanVals {α : Type} (st : JoinState α) : List α :=
  (chans st).map (fun c => c.1.2)

/-- `i += 1; if i >= len(loi): i = 0`, on the zipper. -/
def rotate {α : Type} (st : JoinState α) : JoinState α :=
  match st.right with
  | c :: cs => { st with left := st.left ++ [st.cur], cur := c, right := cs }
  | [] =>
    match st.left with
    | [] => st
    | c :: cs => { st with left := [], cur := c, right := cs ++ [st.cur] }

/-- The loop of `_join_by_first_of_tuple` (lines 325-348).  `none` means the
fuel ran out or the `assert keys[i] < new_key` failed — neither happens on
strictly ascending inputs with enough fuel.  A `StopIteration` while
advancing ends the generator (`return`). -/
def joinRun {α : Type} : Nat → JoinState α → Option (List (Nat × List α))
  | 0, _ => none
  | fuel + 1, st =>
    if chanKey st.cur < st.target ∨ st.force = true then
      -- inner while: advance loi[i] by one element
      match st.cur.2 with
      | [] => some []
      | (nk, nv) :: r =>
        if chanKey st.cur < nk then
          joinRun fuel
            { st with
              cur := ((nk, nv), r)
              target := if st.target < nk then nk else st.target
              force := false }
        else none
    else
      -- i += 1 (wrapping), then `if min(keys) == target_key: yield ...`
      if minKeys (rotate st) = (rotate st).target then
        match joinRun fuel { rotate st with force := true } with
        | some out => some (((rotate st).target, chanVals (rotate st)) :: out)
        | none => none
      else joinRun fuel (rotate st)

/-- Sum of the channels' remaining (unconsumed) lengths. -/
def sigmaRests {α : Type} (st : JoinState α) : Nat :=
  ((chans st).map (fun c => c.2.length)).sum

/-- Enough fuel for the whole loop on the given input. -/
def joinFuel {α : Type} (ls : List (List (Nat × α))) : Nat :=
  (2 * (ls.map List.length).sum + 2) * (ls.length + 2)

/-- `next(it)` on each fresh iterator in turn: all heads and rests, or
`none` as soon as one iterator is empty (`StopIteration`). -/
def toChans {α : Type} : List (List (Nat × α)) → Option (List (Chan α))
  | [] => some []
  | [] :: _ => none
  | (x :: xs) :: ls =>
    match toChans ls with
    | some cs => some ((x, xs) :: cs)
    | none => none

/-- `max(keys)` over a nonempty channel list. -/
def nmaxKeys {α : Type} (c : Chan α) (cs : List (Chan α)) : Nat :=
  cs.foldl (fun m x => max m (chanKey x)) (chanKey c)

/-- Embedding of `_join_by_first_of_tuple`: empty input list or any empty
iterable ends the generator immediately; otherwise the loop starts at
`i = 0` with `target_key = max(keys)`. -/
def _join_by_first_of_tuple {α : Type} (ls : List (List (Nat × α))) :
    Option (List (Nat × List α)) :=
  match toChans ls with
  | none => some []
  | some chs =>
    match chs with
    | [] => some []
    | c :: cs =>
      joinRun (joinFuel ls)
        { left := [], cur := c, right := cs,
          target := nmaxKeys c cs, force := false }

/-! ### The specification of the merge-join -/

/-- The value a sequence holds at a step (first occurrence). -/
def lookupStep {α : Type} : List (Nat × α) → Nat → Option α
  | [], _ => none
  | p :: l, s => if p.1 = s then some p.2 else lookupStep l s

/-- All sequences' values at a step, when every sequence has one. -/
def seqLookup {α : Type} : List (List (Nat × α)) → Nat → Option (List α)
  | [], _ => some []
  | l :: ls, s =>
    match lookupStep l s, seqLookup ls s with
    | some v, some vs => some (v :: vs)
    | _, _ => none

/-- The intended merge-join result: for each step of the first sequence that
every sequence contains, the tuple of all sequences' values at that step, in
the first sequence's order. -/
def joinSpec {α : Type} (ls : List (List (Nat × α))) : List (Nat × List α) :=
  match ls with
  | [] => []
  | l0 :: _ =>
    l0.filterMap (fun p => (seqLookup ls p.1).map (fun vs => (p.1, vs)))

/-- Strictly ascending in the step (first) component. -/
def Asc {α : Type} (l : List (Nat × α)) : Prop :=
  l.Chain' (fun p q => p.1 < q.1)

theorem join_eval_two_channels :
    _join_by_first_of_tuple [[(0, 10), (2, 20)], [(1, 30), (2, 40)]]
      = some [(2, [20, 40])] := by decide

theorem joinSpec_eval_two_channels :
    joinSpec [[(0, 10), (2, 20)], [(1, 30), (2, 40)]]
      = [(2, [20, 40])] := by decide

theorem join_eval_single_channel :
    _join_by_first_of_tuple [[(0, 1), (1, 2), (5, 3)]]
      = some [(0, [1]), (1, [2]), (5, [3])] := by decide

theorem join_eval_three_channels :
    _join_by_first_of_tuple
      [[(0, 1), (2, 2), (4, 3)], [(0, 4), (4, 5)], [(0, 6), (3, 7), (4, 8), (9, 9)]]
    = some [(0, [1, 4, 6]), (4, [3, 5, 8])] := by decide

theorem joinSpec_eval_three_channels :
    joinSpec
      [[(0, 1), (2, 2), (4, 3)], [(0, 4), (4, 5)], [(0, 6), (3, 7), (4, 8), (9, 9)]]
    = [(0, [1, 4, 6]), (4, [3, 5, 8])] := by decide

theorem join_eval_no_iterables :
    _join_by_first_of_tuple ([] : List (List (Nat × Nat))) = some [] := by decide

theorem join_eval_empty_iterable :
    _join_by_first_of_tuple [[(1, 2)], []] = some [] := by decide

/-! ### Facts about ascending sequences and lookups -/

theorem Asc_head_lt {α : Type} :
    ∀ {p : Nat × α} {l : List (Nat × α)}, Asc (p :: l) → ∀ q ∈ l, p.1 < q.1 := by
  intro p l
  induction l generalizing p with
  | nil => intro _ q hq; cases hq
  | cons x xs ih =>
    intro h q hq
    have h1 := (List.chain'_cons.1 h).1
    have h2 := (List.chain'_cons.1 h).2
    rcases List.mem_cons.1 hq with rfl | hq'
    · exact h1
    · exact lt_trans h1 (ih h2 q hq')

theorem Asc_head_le {α : Type} {p : Nat × α} {l : List (Nat × α)}
    (h : Asc (p :: l)) : ∀ q ∈ p :: l, p.1 ≤ q.1 := by
  intro q hq
  rcases List.mem_cons.1 hq with rfl | hq'
  · exact le_refl _
  · exact le_of_lt (Asc_head_lt h q hq')

theorem Asc_tail {α : Type} {p : Nat × α} {l : List (Nat × α)}
    (h : Asc (p :: l)) : Asc l := h.tail

theorem lookupStep_eq_none {α : Type} {l : List (Nat × α)} {s : Nat}
    (h : ∀ p ∈ l, p.1 ≠ s) : lookupStep l s = none := by
  induction l with
  | nil => rfl
  | cons p l ih =>
    rw [lookupStep, if_neg (h p (List.mem_cons_self p l))]
    exact ih (fun q hq => h q (List.mem_cons_of_mem p hq))

theorem lookupStep_gt_none {α : Type} {l : List (Nat × α)} {s t : Nat}
    (h : ∀ p ∈ l, t ≤ p.1) (hs : s < t) : lookupStep l s = none :=
  lookupStep_eq_none (fun p hp he => absurd (he ▸ h p hp) (Nat.not_le_of_lt hs))

theorem lookupStep_isSome_iff {α : Type} {l : List (Nat × α)} {s : Nat} :
    (lookupStep l s).isSome ↔ s ∈ l.map Prod.fst := by
  induction l with
  | nil => simp [lookupStep]
  | cons p l ih =>
    by_cases hp : p.1 = s
    · simp [lookupStep, hp]
    · rw [lookupStep, if_neg hp, List.map_cons]
      simp only [List.mem_cons, ih]
      constructor
      · exact fun h => Or.inr h
      · rintro (h | h)
        · exact absurd h.symm hp
        · exact h

theorem lookupStep_cons_ne {α : Type} {p : Nat × α} {l : List (Nat × α)}
    {s : Nat} (h : p.1 ≠ s) : lookupStep (p :: l) s = lookupStep l s := by
  rw [lookupStep, if_neg h]

theorem seqLookup_none_of_mem {α : Type} {ls : List (List (Nat × α))}
    {l : List (Nat × α)} {s : Nat} (hl : l ∈ ls)
    (h : lookupStep l s = none) : seqLookup ls s = none := by
  induction ls with
  | nil => cases hl
  | cons l0 ls ih =>
    rcases List.mem_cons.1 hl with rfl | hmem
    · rw [seqLookup, h]
    · rw [seqLookup, ih hmem]
      cases lookupStep l0 s <;> rfl

theorem seqLookup_isSome_lookup {α : Type} {ls : List (List (Nat × α))}
    {s : Nat} {vs : List α} (h : seqLookup ls s = some vs) :
    ∀ l ∈ ls, (lookupStep l s).isSome := by
  induction ls generalizing vs with
  | nil => intro l hl; cases hl
  | cons l0 ls ih =>
    intro l hl
    rw [seqLookup] at h
    rcases hv : lookupStep l0 s with _ | v
    · rw [hv] at h; cases h
    · rcases hvs : seqLookup ls s with _ | vs'
      · rw [hv, hvs] at h; cases h
      · rcases List.mem_cons.1 hl with rfl | hmem
        · rw [hv]; rfl
        · exact ih hvs l hmem

theorem seqLookup_length {α : Type} {ls : List (List (Nat × α))} {s : Nat}
    {vs : List α} (h : seqLookup ls s = some vs) : vs.length = ls.length := by
  induction ls generalizing vs with
  | nil => rw [seqLookup] at h; cases h; rfl
  | cons l0 ls ih =>
    rw [seqLookup] at h
    rcases hv : lookupStep l0 s with _ | v <;> rw [hv] at h
    · cases h
    · rcases hvs : seqLookup ls s with _ | vs' <;> rw [hvs] at h
      · cases h
      · cases h
        simp [ih hvs]

theorem seqLookup_append {α : Type} (L R : List (List (Nat × α))) (s : Nat) :
    seqLookup (L ++ R) s
      = match seqLookup L s, seqLookup R s with
        | some a, some b => some (a ++ b)
        | _, _ => none := by
  induction L with
  | nil =>
    show seqLookup R s = _
    cases seqLookup R s <;> rfl
  | cons l0 L ih =>
    show seqLookup (l0 :: (L ++ R)) s = _
    rw [seqLookup, ih, seqLookup]
    cases lookupStep l0 s <;> cases seqLookup L s <;> cases seqLookup R s <;> rfl

/-- Pointwise equality of lookups transfers to `seqLookup`: heads with key
`t` may be stripped when looking up a step `s ≠ t`. -/
theorem seqLookup_strip {α : Type} (P : List (Chan α)) (s t : Nat)
    (hst : s ≠ t) (hks : ∀ c ∈ P, chanKey c = t) :
    seqLookup (P.map chanSeq) s = seqLookup (P.map (fun c => c.2)) s := by
  induction P with
  | nil => rfl
  | cons c P ih =>
    have hc : c.1.1 ≠ s := by
      have := hks c (List.mem_cons_self c P)
      rw [chanKey] at this
      rw [this]
      exact fun e => hst e.symm
    rw [List.map_cons, List.map_cons]
    show seqLookup (chanSeq c :: P.map chanSeq) s = _
    rw [seqLookup, seqLookup, chanSeq, lookupStep_cons_ne hc,
      ih (fun x hx => hks x (List.mem_cons_of_mem c hx))]

/-- Helper: a pointwise-equal `filterMap`. -/
theorem filterMap_congr_mem {α β : Type} {f g : α → Option β} :
    ∀ {l : List α}, (∀ a ∈ l, f a = g a) → l.filterMap f = l.filterMap g := by
  intro l
  induction l with
  | nil => exact fun _ => rfl
  | cons x xs ih =>
    intro h
    rw [List.filterMap_cons, List.filterMap_cons,
      h x (List.mem_cons_self x xs),
      ih (fun a ha => h a (List.mem_cons_of_mem x ha))]

/-! ### Rewriting `joinSpec` -/

theorem joinSpec_cons_eq {α : Type} (l0 : List (Nat × α))
    (rest : List (List (Nat × α))) :
    joinSpec (l0 :: rest)
      = l0.filterMap (fun p =>
          (seqLookup (l0 :: rest) p.1).map (fun vs => (p.1, vs))) := by
  simp only [joinSpec]

/-- A sequence with no remaining elements kills the join. -/
theorem joinSpec_empty_mem {α : Type} {ls : List (List (Nat × α))}
    (h : [] ∈ ls) : joinSpec ls = [] := by
  cases ls with
  | nil => rfl
  | cons l0 rest =>
    rw [joinSpec_cons_eq, List.filterMap_eq_nil_iff]
    intro p _
    rw [seqLookup_none_of_mem h rfl]
    rfl

/-- If one sequence lives entirely below `t` and another entirely at or
above `t`, no common step exists. -/
theorem joinSpec_no_common {α : Type} {ls : List (List (Nat × α))} {t : Nat}
    (hlo : ∃ lo ∈ ls, ∀ p ∈ lo, p.1 < t)
    (hhi : ∃ hi ∈ ls, ∀ p ∈ hi, t ≤ p.1) : joinSpec ls = [] := by
  obtain ⟨lo, hlomem, hlop⟩ := hlo
  obtain ⟨hi, hhimem, hhip⟩ := hhi
  cases ls with
  | nil => rfl
  | cons l0 rest =>
    rw [joinSpec_cons_eq, List.filterMap_eq_nil_iff]
    intro p _
    rcases hsl : seqLookup (l0 :: rest) p.1 with _ | vs
    · rfl
    · exfalso
      have hlos := seqLookup_isSome_lookup hsl lo hlomem
      have hhis := seqLookup_isSome_lookup hsl hi hhimem
      obtain ⟨q, hq, hq1⟩ := List.mem_map.1 (lookupStep_isSome_iff.1 hlos)
      obtain ⟨q', hq', hq1'⟩ := List.mem_map.1 (lookupStep_isSome_iff.1 hhis)
      have h1 : p.1 < t := hq1 ▸ hlop q hq
      have h2 : t ≤ p.1 := hq1' ▸ hhip q' hq'
      omega

theorem seqLookup_witness_none {α : Type} {L R : List (List (Nat × α))}
    (X : List (Nat × α)) {s₀ t : Nat} (hs₀ : s₀ < t)
    (hwit : ∃ w ∈ L ++ R, ∀ p ∈ w, t ≤ p.1) :
    seqLookup (L ++ X :: R) s₀ = none := by
  obtain ⟨w, hw, hwp⟩ := hwit
  apply seqLookup_none_of_mem _ (lookupStep_gt_none hwp hs₀)
  rcases List.mem_append.1 hw with h | h
  · exact List.mem_append_left _ h
  · exact List.mem_append_right _ (List.mem_cons_of_mem _ h)

theorem seqLookup_drop_mid {α : Type} (L R : List (List (Nat × α)))
    (s₀ : Nat) (v₀ : α) (r₀ : List (Nat × α)) {s : Nat} (hne : s₀ ≠ s) :
    seqLookup (L ++ ((s₀, v₀) :: r₀) :: R) s = seqLookup (L ++ r₀ :: R) s := by
  rw [seqLookup_append, seqLookup_append]
  have hmid : seqLookup (((s₀, v₀) :: r₀) :: R) s = seqLookup (r₀ :: R) s := by
    rw [seqLookup, seqLookup, lookupStep_cons_ne hne]
  rw [hmid]

/-- Dropping a sequence's head key `s₀` does not change the join, provided
its remaining steps lie above `s₀` and some *other* sequence lives entirely
at or above a threshold `t > s₀` (so `s₀` is not a common step). -/
theorem joinSpec_drop_one {α : Type} (L R : List (List (Nat × α)))
    (s₀ : Nat) (v₀ : α) (r₀ : List (Nat × α)) (t : Nat)
    (hs₀ : s₀ < t) (hr₀ : ∀ p ∈ r₀, s₀ < p.1)
    (hwit : ∃ w ∈ L ++ R, ∀ p ∈ w, t ≤ p.1) :
    joinSpec (L ++ ((s₀, v₀) :: r₀) :: R) = joinSpec (L ++ r₀ :: R) := by
  cases L with
  | nil =>
    simp only [List.nil_append]
    rw [joinSpec_cons_eq, joinSpec_cons_eq, List.filterMap_cons]
    have h0 : seqLookup (((s₀, v₀) :: r₀) :: R) (s₀, v₀).1 = none :=
      seqLookup_witness_none (L := []) (R := R) _ hs₀ hwit
    rw [h0]
    show List.filterMap _ r₀ = List.filterMap _ r₀
    apply filterMap_congr_mem
    intro p hp
    have hne : s₀ ≠ p.1 := Nat.ne_of_lt (hr₀ p hp)
    have := seqLookup_drop_mid [] R s₀ v₀ r₀ hne
    simp only [List.nil_append] at this
    rw [this]
  | cons l0 L' =>
    simp only [List.cons_append]
    rw [joinSpec_cons_eq, joinSpec_cons_eq]
    apply filterMap_congr_mem
    intro p hp
    by_cases hps : p.1 = s₀
    · rw [hps,
        show (l0 :: (L' ++ ((s₀, v₀) :: r₀) :: R))
          = (l0 :: L') ++ ((s₀, v₀) :: r₀) :: R from rfl,
        show (l0 :: (L' ++ r₀ :: R)) = (l0 :: L') ++ r₀ :: R from rfl,
        seqLookup_witness_none (L := l0 :: L') (R := R) _ hs₀ hwit,
        seqLookup_witness_none (L := l0 :: L') (R := R) _ hs₀ hwit]
    · rw [show (l0 :: (L' ++ ((s₀, v₀) :: r₀) :: R))
          = (l0 :: L') ++ ((s₀, v₀) :: r₀) :: R from rfl,
        show (l0 :: (L' ++ r₀ :: R)) = (l0 :: L') ++ r₀ :: R from rfl,
        seqLookup_drop_mid (l0 :: L') R s₀ v₀ r₀ (fun e => hps e.symm)]

theorem seqLookup_heads {α : Type} (cs : List (Chan α)) (t : Nat)
    (hks : ∀ c ∈ cs, chanKey c = t) :
    seqLookup (cs.map chanSeq) t = some (cs.map (fun c => c.1.2)) := by
  induction cs with
  | nil => rfl
  | cons c cs ih =>
    have hc : c.1.1 = t := hks c (List.mem_cons_self c cs)
    rw [List.map_cons, List.map_cons]
    show seqLookup (chanSeq c :: _) t = _
    rw [seqLookup, chanSeq, lookupStep, if_pos hc,
      ih (fun x hx => hks x (List.mem_cons_of_mem c hx))]

/-- When every channel sits at key `t` and all the rests lie above `t`, the
join of the full sequences is `(t, values)` followed by the join of the
rests. -/
theorem joinSpec_yield {α : Type} (c₀ : Chan α) (cs' : List (Chan α)) (t : Nat)
    (hks : ∀ c ∈ c₀ :: cs', chanKey c = t)
    (htails : ∀ c ∈ c₀ :: cs', ∀ p ∈ c.2, t < p.1) :
    joinSpec ((c₀ :: cs').map chanSeq)
      = (t, (c₀ :: cs').map (fun c => c.1.2))
          :: joinSpec ((c₀ :: cs').map (fun c => c.2)) := by
  have hk0 : c₀.1.1 = t := hks c₀ (List.mem_cons_self _ _)
  have hseq : seqLookup ((c₀.1 :: c₀.2) :: cs'.map chanSeq) c₀.1.1
      = some ((c₀ :: cs').map (fun c => c.1.2)) := by
    rw [hk0]
    have h := seqLookup_heads (c₀ :: cs') t hks
    rwa [List.map_cons, show chanSeq c₀ = c₀.1 :: c₀.2 from rfl] at h
  rw [List.map_cons, joinSpec_cons_eq,
    show chanSeq c₀ = c₀.1 :: c₀.2 from rfl]
  have hfhead : (fun p : Nat × α =>
        (seqLookup ((c₀.1 :: c₀.2) :: cs'.map chanSeq) p.1).map
          (fun vs => (p.1, vs))) c₀.1
      = some (c₀.1.1, (c₀ :: cs').map (fun c => c.1.2)) := by
    show (seqLookup ((c₀.1 :: c₀.2) :: cs'.map chanSeq) c₀.1.1).map
        (fun vs => (c₀.1.1, vs)) = _
    rw [hseq]
    rfl
  have hstep := List.filterMap_cons_some
    (f := fun p : Nat × α =>
      (seqLookup ((c₀.1 :: c₀.2) :: cs'.map chanSeq) p.1).map
        (fun vs => (p.1, vs)))
    (a := c₀.1) (l := c₀.2) hfhead
  rw [hstep]
  congr 1
  · rw [hk0]
  -- the tail candidates: all lookups skip the heads at key t
  rw [List.map_cons, joinSpec_cons_eq]
  apply filterMap_congr_mem
  intro p hp
  have hpt : t < p.1 := htails c₀ (List.mem_cons_self _ _) p hp
  have hlook : lookupStep (c₀.1 :: c₀.2) p.1 = lookupStep c₀.2 p.1 :=
    lookupStep_cons_ne (by rw [hk0]; omega)
  have hseqs : seqLookup ((c₀.1 :: c₀.2) :: cs'.map chanSeq) p.1
      = seqLookup (c₀.2 :: cs'.map (fun c => c.2)) p.1 := by
    rw [seqLookup, seqLookup, hlook,
      seqLookup_strip cs' p.1 t (by omega)
        (fun x hx => hks x (List.mem_cons_of_mem c₀ hx))]
  rw [hseqs]

/-- Dropping the key-`t` heads of every channel but a fixed pivot sequence
`A` whose steps all lie above `t` does not change the join. -/
theorem joinSpec_strip_heads {α : Type} (P Q : List (Chan α))
    (A : List (Nat × α)) (t : Nat)
    (hks : ∀ c ∈ P ++ Q, chanKey c = t)
    (htails : ∀ c ∈ P ++ Q, ∀ p ∈ c.2, t < p.1)
    (hA : ∀ p ∈ A, t < p.1) :
    joinSpec (P.map chanSeq ++ A :: Q.map chanSeq)
      = joinSpec (P.map (fun c => c.2) ++ A :: Q.map (fun c => c.2)) := by
  have hksP : ∀ c ∈ P, chanKey c = t :=
    fun c hc => hks c (List.mem_append_left _ hc)
  have hksQ : ∀ c ∈ Q, chanKey c = t :=
    fun c hc => hks c (List.mem_append_right _ hc)
  have hS5a : ∀ s : Nat, s ≠ t →
      seqLookup (P.map chanSeq ++ A :: Q.map chanSeq) s
        = seqLookup (P.map (fun c => c.2) ++ A :: Q.map (fun c => c.2)) s := by
    intro s hs
    rw [seqLookup_append, seqLookup_append, seqLookup_strip P s t hs hksP]
    have hmid : seqLookup (A :: Q.map chanSeq) s
        = seqLookup (A :: Q.map (fun c => c.2)) s := by
      rw [seqLookup, seqLookup, seqLookup_strip Q s t hs hksQ]
    rw [hmid]
  cases P with
  | nil =>
    simp only [List.map_nil, List.nil_append] at hS5a ⊢
    rw [joinSpec_cons_eq, joinSpec_cons_eq]
    apply filterMap_congr_mem
    intro p hp
    rw [hS5a p.1 (by have := hA p hp; omega)]
  | cons p₀ P' =>
    simp only [List.map_cons, List.cons_append] at hS5a ⊢
    rw [joinSpec_cons_eq, joinSpec_cons_eq]
    rw [show chanSeq p₀ = p₀.1 :: p₀.2 from rfl] at hS5a ⊢
    have hk0 : p₀.1.1 = t := hksP p₀ (List.mem_cons_self _ _)
    have hnone : seqLookup
        ((p₀.1 :: p₀.2) :: (P'.map chanSeq ++ A :: Q.map chanSeq)) p₀.1.1
        = none := by
      rw [hk0]
      apply seqLookup_none_of_mem (l := A)
      · exact List.mem_cons_of_mem _
          (List.mem_append_right _ (List.mem_cons_self _ _))
      · exact lookupStep_gt_none (fun p hp => hA p hp) (Nat.lt_succ_self t)
    -- the witness expects `∀ p ∈ A, t + 1 ≤ p.1`; `hA` gives `t < p.1`
    have hfnone : (fun p : Nat × α =>
        (seqLookup ((p₀.1 :: p₀.2) :: (P'.map chanSeq ++ A :: Q.map chanSeq))
          p.1).map (fun vs => (p.1, vs))) p₀.1 = none := by
      show (seqLookup _ p₀.1.1).map _ = none
      rw [hnone]
      rfl
    have hstep := List.filterMap_cons_none (f := fun p : Nat × α =>
      (seqLookup ((p₀.1 :: p₀.2) :: (P'.map chanSeq ++ A :: Q.map chanSeq))
        p.1).map (fun vs => (p.1, vs))) (l := p₀.2) hfnone
    rw [hstep]
    apply filterMap_congr_mem
    intro p hp
    have hpt : t < p.1 :=
      htails p₀ (List.mem_append_left _ (List.mem_cons_self _ _)) p hp
    rw [hS5a p.1 (by omega)]

/-! ### The loop state: rotation, minimum, measure -/

theorem rotate_target {α : Type} (st : JoinState α) :
    (rotate st).target = st.target := by
  obtain ⟨L, c, R, t, b⟩ := st
  cases R with
  | cons r rs => rfl
  | nil => cases L <;> rfl

theorem rotate_force {α : Type} (st : JoinState α) :
    (rotate st).force = st.force := by
  obtain ⟨L, c, R, t, b⟩ := st
  cases R with
  | cons r rs => rfl
  | nil => cases L <;> rfl

theorem chans_rotate {α : Type} (st : JoinState α) :
    chans (rotate st) = chans st := by
  obtain ⟨L, c, R, t, b⟩ := st
  cases R with
  | cons r rs => simp [chans, rotate]
  | nil =>
    cases L with
    | nil => rfl
    | cons x xs => simp [chans, rotate]

/-- Rotation turns the cyclic order (from the current index) one step. -/
theorem rotate_cyc {α : Type} (st : JoinState α) :
    (rotate st).cur :: ((rotate st).right ++ (rotate st).left)
      = (st.right ++ st.left) ++ [st.cur] := by
  obtain ⟨L, c, R, t, b⟩ := st
  cases R with
  | cons r rs => simp [rotate]
  | nil =>
    cases L with
    | nil => rfl
    | cons x xs => simp [rotate]

theorem foldlMin_le_init {α : Type} :
    ∀ (l : List (Chan α)) (a : Nat),
      l.foldl (fun m c => min m (chanKey c)) a ≤ a := by
  intro l
  induction l with
  | nil => exact fun a => le_refl a
  | cons x xs ih =>
    intro a
    exact le_trans (ih _) (Nat.min_le_left _ _)

theorem foldlMin_le_mem {α : Type} :
    ∀ (l : List (Chan α)) (a : Nat) (c : Chan α), c ∈ l →
      l.foldl (fun m c => min m (chanKey c)) a ≤ chanKey c := by
  intro l
  induction l with
  | nil => intro a c hc; cases hc
  | cons x xs ih =>
    intro a c hc
    rw [List.foldl_cons]
    rcases List.mem_cons.1 hc with rfl | hc'
    · exact le_trans (foldlMin_le_init _ _) (Nat.min_le_right _ _)
    · exact ih _ c hc'

theorem foldlMin_attained {α : Type} :
    ∀ (l : List (Chan α)) (a : Nat),
      l.foldl (fun m c => min m (chanKey c)) a = a
        ∨ ∃ c ∈ l, l.foldl (fun m c => min m (chanKey c)) a = chanKey c := by
  intro l
  induction l with
  | nil => exact fun a => Or.inl rfl
  | cons x xs ih =>
    intro a
    rcases ih (min a (chanKey x)) with h | ⟨c, hc, he⟩
    · rcases Nat.le_total a (chanKey x) with hle | hle
      · exact Or.inl (by rw [List.foldl_cons, h, Nat.min_eq_left hle])
      · exact Or.inr ⟨x, List.mem_cons_self x xs,
          by rw [List.foldl_cons, h, Nat.min_eq_right hle]⟩
    · exact Or.inr ⟨c, List.mem_cons_of_mem _ hc,
        by rw [List.foldl_cons]; exact he⟩

theorem minKeys_le {α : Type} (st : JoinState α) :
    ∀ c ∈ chans st, minKeys st ≤ chanKey c := by
  intro c hc
  rcases List.mem_append.1 hc with h | h
  · exact foldlMin_le_mem _ _ _ (List.mem_append_left _ h)
  · rcases List.mem_cons.1 h with rfl | h'
    · exact foldlMin_le_init _ _
    · exact foldlMin_le_mem _ _ _ (List.mem_append_right _ h')

theorem minKeys_attained {α : Type} (st : JoinState α) :
    ∃ c ∈ chans st, minKeys st = chanKey c := by
  rcases foldlMin_attained (st.left ++ st.right) (chanKey st.cur) with h | ⟨c, hc, he⟩
  · exact ⟨st.cur, List.mem_append_right _ (List.mem_cons_self _ _), h⟩
  · rcases List.mem_append.1 hc with h' | h'
    · exact ⟨c, List.mem_append_left _ h', he⟩
    · exact ⟨c, List.mem_append_right _ (List.mem_cons_of_mem _ h'), he⟩

theorem findIdx_append_of_exists {α : Type} (p : Chan α → Bool)
    (X Y : List (Chan α)) (h : ∃ x ∈ X, p x = true) :
    (X ++ Y).findIdx p = X.findIdx p := by
  induction X with
  | nil => obtain ⟨x, hx, _⟩ := h; cases hx
  | cons a X ih =>
    rw [List.cons_append, List.findIdx_cons, List.findIdx_cons]
    cases hpa : p a with
    | true => rfl
    | false =>
      obtain ⟨x, hx, hpx⟩ := h
      rcases List.mem_cons.1 hx with rfl | hx'
      · rw [hpa] at hpx; cases hpx
      · simp only [cond_false]
        rw [ih ⟨x, hx', hpx⟩]

/-- A channel strictly below the target key (still has catching up to do). -/
def needyB {α : Type} (t : Nat) (c : Chan α) : Bool := decide (chanKey c < t)

/-- Cyclic distance from the current index to the first needy channel. -/
def dIdx {α : Type} (st : JoinState α) : Nat :=
  (st.cur :: (st.right ++ st.left)).findIdx (needyB st.target)

/-- The termination measure of the loop: consuming steps dominate, cycling
steps drain `dIdx`. -/
def muJ {α : Type} (st : JoinState α) : Nat :=
  (2 * sigmaRests st + cond st.force 0 1) * ((chans st).length + 1) + dIdx st

/-- The loop invariant: ascending channels, keys bounded by and attaining
`target_key`, and `force_advance` only straight after a yield (all keys at
the target). -/
def JInv {α : Type} (st : JoinState α) : Prop :=
  (∀ c ∈ chans st, Asc (chanSeq c))
  ∧ (∀ c ∈ chans st, chanKey c ≤ st.target)
  ∧ (∃ c ∈ chans st, chanKey c = st.target)
  ∧ (st.force = true → ∀ c ∈ chans st, chanKey c = st.target)

/-- What the loop still owes from a given state. -/
def stSpec {α : Type} (st : JoinState α) : List (Nat × List α) :=
  if st.force = true then joinSpec ((chans st).map (fun c => c.2))
  else joinSpec ((chans st).map chanSeq)


theorem cond_of_false {γ : Type} {b : Bool} (h : b = false) (x y : γ) :
    cond b x y = y := by
  subst h
  rfl

theorem chanSeq_mk {α : Type} (p : Nat × α) (l : List (Nat × α)) :
    chanSeq (p, l) = p :: l := rfl

theorem dIdx_le {α : Type} (st : JoinState α) : dIdx st ≤ (chans st).length := by
  have h : (st.cur :: (st.right ++ st.left)).findIdx (needyB st.target)
      ≤ (st.cur :: (st.right ++ st.left)).length :=
    List.findIdx_le_length (needyB st.target)
  unfold dIdx chans
  simp only [List.length_cons, List.length_append] at h ⊢
  omega

theorem muJ_adv_arith (σ K d d' b : Nat) (hd : d' ≤ K) :
    (2 * σ + 1) * (K + 1) + d' < (2 * (σ + 1) + b) * (K + 1) + d := by
  have h : (2 * (σ + 1) + b) * (K + 1)
      = (2 * σ + 1) * (K + 1) + (K + 1) + b * (K + 1) := by ring
  omega

theorem muJ_yield_arith (σ K d d2 : Nat) (h : d2 ≤ K) :
    (2 * σ + 0) * (K + 1) + d2 < (2 * σ + 1) * (K + 1) + d := by
  have he : (2 * σ + 1) * (K + 1) = (2 * σ + 0) * (K + 1) + (K + 1) := by ring
  omega

theorem joinFuel_arith (σ K d S : Nat) (hd : d ≤ K) (hσ : σ ≤ S) :
    (2 * σ + 1) * (K + 1) + d < (2 * S + 2) * (K + 2) := by
  have h1 : (2 * σ + 1) * (K + 1) + (K + 1) = (2 * σ + 2) * (K + 1) := by ring
  have hmono : (2 * σ + 2) * (K + 1) ≤ (2 * S + 2) * (K + 2) :=
    Nat.mul_le_mul (by omega) (by omega)
  omega

/-- The state after one pass of the inner advance loop. -/
def advSt {α : Type} (st : JoinState α) (nk : Nat) (nv : α)
    (r : List (Nat × α)) : JoinState α :=
  { st with
    cur := ((nk, nv), r)
    target := if st.target < nk then nk else st.target
    force := false }

theorem chans_advSt {α : Type} (st : JoinState α) (nk : Nat) (nv : α)
    (r : List (Nat × α)) :
    chans (advSt st nk nv r) = st.left ++ ((nk, nv), r) :: st.right := rfl

theorem target_advSt {α : Type} (st : JoinState α) (nk : Nat) (nv : α)
    (r : List (Nat × α)) :
    (advSt st nk nv r).target = if st.target < nk then nk else st.target := rfl

theorem force_advSt {α : Type} (st : JoinState α) (nk : Nat) (nv : α)
    (r : List (Nat × α)) : (advSt st nk nv r).force = false := rfl

theorem muJ_adv {α : Type} (st : JoinState α) (nk : Nat) (nv : α)
    (r : List (Nat × α)) (hc2 : st.cur.2 = (nk, nv) :: r) :
    muJ (advSt st nk nv r) < muJ st := by
  have hK : (chans (advSt st nk nv r)).length = (chans st).length := by
    rw [chans_advSt]
    unfold chans
    simp
  have hσ : sigmaRests st = sigmaRests (advSt st nk nv r) + 1 := by
    unfold sigmaRests
    rw [chans_advSt]
    unfold chans
    simp only [List.map_append, List.map_cons, List.sum_append, List.sum_cons,
      hc2, List.length_cons]
    omega
  have hd : dIdx (advSt st nk nv r) ≤ (chans st).length := by
    have h := dIdx_le (advSt st nk nv r)
    rwa [hK] at h
  show (2 * sigmaRests (advSt st nk nv r) + 1)
      * ((chans (advSt st nk nv r)).length + 1) + dIdx (advSt st nk nv r)
    < (2 * sigmaRests st + cond st.force 0 1) * ((chans st).length + 1)
      + dIdx st
  rw [hσ, hK]
  exact muJ_adv_arith _ _ _ _ _ hd

theorem JInv_adv {α : Type} (st : JoinState α) (nk : Nat) (nv : α)
    (r : List (Nat × α)) (hc2 : st.cur.2 = (nk, nv) :: r)
    (hinv : JInv st) (hcond : chanKey st.cur < st.target ∨ st.force = true)
    (hlt : chanKey st.cur < nk) :
    JInv (advSt st nk nv r) := by
  obtain ⟨hasc, hbd, hatt, hforce⟩ := hinv
  have hcur : st.cur ∈ chans st :=
    List.mem_append_right _ (List.mem_cons_self _ _)
  have hmem' : ∀ c ∈ chans (advSt st nk nv r),
      c = ((nk, nv), r) ∨ c ∈ chans st := by
    intro c hcmem
    rw [chans_advSt] at hcmem
    rcases List.mem_append.1 hcmem with h | h
    · exact Or.inr (List.mem_append_left _ h)
    · rcases List.mem_cons.1 h with rfl | h'
      · exact Or.inl rfl
      · exact Or.inr (List.mem_append_right _ (List.mem_cons_of_mem _ h'))
  have hAsc : Asc (st.cur.1 :: (nk, nv) :: r) := by
    have h : Asc (st.cur.1 :: st.cur.2) := hasc st.cur hcur
    rwa [hc2] at h
  have htmax : st.target ≤ (advSt st nk nv r).target
      ∧ nk ≤ (advSt st nk nv r).target := by
    rw [target_advSt]
    by_cases h : st.target < nk
    · rw [if_pos h]
      omega
    · rw [if_neg h]
      omega
  refine ⟨?_, ?_, ?_, ?_⟩
  · intro c hcmem
    rcases hmem' c hcmem with rfl | h
    · exact Asc_tail hAsc
    · exact hasc c h
  · intro c hcmem
    rcases hmem' c hcmem with rfl | h
    · exact htmax.2
    · exact le_trans (hbd c h) htmax.1
  · by_cases h : st.target < nk
    · refine ⟨((nk, nv), r), ?_, ?_⟩
      · rw [chans_advSt]
        exact List.mem_append_right _ (List.mem_cons_self _ _)
      · show nk = (advSt st nk nv r).target
        rw [target_advSt, if_pos h]
    · obtain ⟨cx, hcxmem, hcxk⟩ := hatt
      have hklt : chanKey st.cur < st.target := by
        rcases hcond with h' | h'
        · exact h'
        · have := hforce h' st.cur hcur
          omega
      have hcx_ne : cx ≠ st.cur := by
        intro he
        rw [he] at hcxk
        omega
      refine ⟨cx, ?_, ?_⟩
      · rw [chans_advSt]
        rcases List.mem_append.1 hcxmem with h' | h'
        · exact List.mem_append_left _ h'
        · rcases List.mem_cons.1 h' with he | h''
          · exact absurd he hcx_ne
          · exact List.mem_append_right _ (List.mem_cons_of_mem _ h'')
      · rw [hcxk, target_advSt, if_neg h]
  · intro h
    rw [force_advSt] at h
    cases h

theorem stSpec_adv {α : Type} (st : JoinState α) (nk : Nat) (nv : α)
    (r : List (Nat × α)) (hc2 : st.cur.2 = (nk, nv) :: r)
    (hinv : JInv st) (hcond : chanKey st.cur < st.target ∨ st.force = true) :
    stSpec (advSt st nk nv r) = stSpec st := by
  obtain ⟨hasc, hbd, hatt, hforce⟩ := hinv
  have hcur : st.cur ∈ chans st :=
    List.mem_append_right _ (List.mem_cons_self _ _)
  have hAsc : Asc (st.cur.1 :: (nk, nv) :: r) := by
    have h : Asc (st.cur.1 :: st.cur.2) := hasc st.cur hcur
    rwa [hc2] at h
  have hL : stSpec (advSt st nk nv r)
      = joinSpec ((st.left ++ ((nk, nv), r) :: st.right).map chanSeq) := rfl
  have hmapL : (st.left ++ ((nk, nv), r) :: st.right).map chanSeq
      = st.left.map chanSeq ++ ((nk, nv) :: r) :: st.right.map chanSeq := by
    simp only [List.map_append, List.map_cons, chanSeq_mk]
  by_cases hf : st.force = true
  · have hall := hforce hf
    have hkc : chanKey st.cur = st.target := hall st.cur hcur
    have hR : stSpec st = joinSpec ((chans st).map (fun c => c.2)) := by
      unfold stSpec
      rw [if_pos hf]
    have hmapR : (chans st).map (fun c => c.2)
        = st.left.map (fun c => c.2)
            ++ ((nk, nv) :: r) :: st.right.map (fun c => c.2) := by
      unfold chans
      simp only [List.map_append, List.map_cons, hc2]
    rw [hL, hR, hmapL, hmapR]
    apply joinSpec_strip_heads
    · intro c hcm
      rcases List.mem_append.1 hcm with h | h
      · exact hall c (List.mem_append_left _ h)
      · exact hall c (List.mem_append_right _ (List.mem_cons_of_mem _ h))
    · intro c hcm p hp
      have hcm' : c ∈ chans st := by
        rcases List.mem_append.1 hcm with h | h
        · exact List.mem_append_left _ h
        · exact List.mem_append_right _ (List.mem_cons_of_mem _ h)
      have hck : chanKey c = st.target := hall c hcm'
      have hA2 : Asc (c.1 :: c.2) := hasc c hcm'
      have h := Asc_head_lt hA2 p hp
      have he : chanKey c = c.1.1 := rfl
      omega
    · intro p hp
      have h := Asc_head_lt hAsc p hp
      have he : chanKey st.cur = st.cur.1.1 := rfl
      omega
  · have hklt : chanKey st.cur < st.target := hcond.resolve_right hf
    have hf2 : st.force = false := by
      cases hfb : st.force
      · rfl
      · exact absurd hfb hf
    have hR : stSpec st = joinSpec ((chans st).map chanSeq) := by
      unfold stSpec
      rw [if_neg hf]
    have hmapR : (chans st).map chanSeq
        = st.left.map chanSeq
            ++ (st.cur.1 :: (nk, nv) :: r) :: st.right.map chanSeq := by
      unfold chans
      simp only [List.map_append, List.map_cons]
      rw [show chanSeq st.cur = st.cur.1 :: st.cur.2 from rfl, hc2]
    obtain ⟨cx, hcxmem, hcxk⟩ := hatt
    have hcx_ne : cx ≠ st.cur := by
      intro he
      rw [he] at hcxk
      omega
    have hw : chanSeq cx ∈ st.left.map chanSeq ++ st.right.map chanSeq := by
      rcases List.mem_append.1 hcxmem with h | h
      · exact List.mem_append_left _ (List.mem_map_of_mem _ h)
      · rcases List.mem_cons.1 h with he | h'
        · exact absurd he hcx_ne
        · exact List.mem_append_right _ (List.mem_map_of_mem _ h')
    have hwb : ∀ p ∈ chanSeq cx, st.target ≤ p.1 := by
      intro p hp
      have hA2 : Asc (cx.1 :: cx.2) := hasc cx hcxmem
      have hp' : p ∈ cx.1 :: cx.2 := hp
      have h := Asc_head_le hA2 p hp'
      have he : chanKey cx = cx.1.1 := rfl
      omega
    rw [hL, hR, hmapL, hmapR]
    exact (joinSpec_drop_one (st.left.map chanSeq) (st.right.map chanSeq)
      st.cur.1.1 st.cur.1.2 ((nk, nv) :: r) st.target hklt
      (fun p hp => Asc_head_lt hAsc p hp) ⟨chanSeq cx, hw, hwb⟩).symm

theorem JInv_rotate {α : Type} (st : JoinState α) (h : JInv st) :
    JInv (rotate st) := by
  obtain ⟨h1, h2, h3, h4⟩ := h
  refine ⟨?_, ?_, ?_, ?_⟩
  · rw [chans_rotate]
    exact h1
  · rw [chans_rotate, rotate_target]
    exact h2
  · rw [chans_rotate, rotate_target]
    exact h3
  · rw [rotate_force, chans_rotate, rotate_target]
    exact h4


/-- The loop computes exactly what it still owes, given the invariant and
enough fuel. -/
theorem joinRun_eq {α : Type} :
    ∀ (fuel : Nat) (st : JoinState α), JInv st → muJ st < fuel →
      joinRun fuel st = some (stSpec st) := by
  intro fuel
  induction fuel with
  | zero =>
    intro st _ hmu
    exact absurd hmu (Nat.not_lt_zero _)
  | succ fuel ih =>
    intro st hinv hmu
    obtain ⟨hasc, hbd, hatt, hforce⟩ := hinv
    have hcur : st.cur ∈ chans st :=
      List.mem_append_right _ (List.mem_cons_self _ _)
    rw [joinRun]
    by_cases hcond : chanKey st.cur < st.target ∨ st.force = true
    · rw [if_pos hcond]
      rcases hc2 : st.cur.2 with _ | ⟨⟨nk, nv⟩, r⟩
      · -- `StopIteration` while advancing: the generator returns, and
        -- nothing was still owed
        have h00 : stSpec st = [] := by
          by_cases hf : st.force = true
          · have h0 : stSpec st = joinSpec ((chans st).map (fun c => c.2)) := by
              unfold stSpec
              rw [if_pos hf]
            rw [h0, joinSpec_empty_mem (List.mem_map.2 ⟨st.cur, hcur, hc2⟩)]
          · have h0 : stSpec st = joinSpec ((chans st).map chanSeq) := by
              unfold stSpec
              rw [if_neg hf]
            have hklt : chanKey st.cur < st.target := hcond.resolve_right hf
            obtain ⟨cx, hcx, hcxk⟩ := hatt
            rw [h0]
            apply joinSpec_no_common (t := st.target)
            · refine ⟨chanSeq st.cur, List.mem_map_of_mem _ hcur, ?_⟩
              intro p hp
              have hp' : p ∈ st.cur.1 :: st.cur.2 := hp
              rw [hc2] at hp'
              rcases List.mem_cons.1 hp' with rfl | h
              · exact hklt
              · cases h
            · refine ⟨chanSeq cx, List.mem_map_of_mem _ hcx, ?_⟩
              intro p hp
              have hA : Asc (cx.1 :: cx.2) := hasc cx hcx
              have hp' : p ∈ cx.1 :: cx.2 := hp
              have h := Asc_head_le hA p hp'
              have he : chanKey cx = cx.1.1 := rfl
              omega
        rw [h00]
      · -- advance `cur` by one element
        have hAsc : Asc (st.cur.1 :: (nk, nv) :: r) := by
          have h : Asc (st.cur.1 :: st.cur.2) := hasc st.cur hcur
          rwa [hc2] at h
        have hlt : chanKey st.cur < nk := (List.chain'_cons.1 hAsc).1
        show (if chanKey st.cur < nk then
            joinRun fuel
              { st with
                cur := ((nk, nv), r)
                target := if st.target < nk then nk else st.target
                force := false }
          else none) = some (stSpec st)
        rw [if_pos hlt]
        show joinRun fuel (advSt st nk nv r) = some (stSpec st)
        rw [ih (advSt st nk nv r)
            (JInv_adv st nk nv r hc2 ⟨hasc, hbd, hatt, hforce⟩ hcond hlt)
            (lt_of_lt_of_le (muJ_adv st nk nv r hc2) (Nat.lt_succ_iff.1 hmu)),
          stSpec_adv st nk nv r hc2 ⟨hasc, hbd, hatt, hforce⟩ hcond]
    · rw [if_neg hcond]
      have hkge : ¬ chanKey st.cur < st.target := fun h => hcond (Or.inl h)
      have hf : ¬ st.force = true := fun h => hcond (Or.inr h)
      have hf2 : st.force = false := by
        cases hfb : st.force
        · rfl
        · exact absurd hfb hf
      have hkey : chanKey st.cur = st.target :=
        le_antisymm (hbd st.cur hcur) (Nat.le_of_not_lt hkge)
      have hinv1 : JInv (rotate st) := JInv_rotate st ⟨hasc, hbd, hatt, hforce⟩
      have hSt : stSpec st = joinSpec ((chans st).map chanSeq) := by
        unfold stSpec
        rw [if_neg hf]
      by_cases hmin : minKeys (rotate st) = (rotate st).target
      · -- i += 1 then `min(keys) == target_key`: yield and force the advance
        rw [if_pos hmin]
        have hall : ∀ c ∈ chans st, chanKey c = st.target := by
          intro c hc
          have h1 : chanKey c ≤ st.target := hbd c hc
          have h2 : minKeys (rotate st) ≤ chanKey c := by
            apply minKeys_le
            rw [chans_rotate]
            exact hc
          rw [rotate_target] at hmin
          omega
        have hch2 : chans { rotate st with force := true } = chans st :=
          chans_rotate st
        have htg2 : ({ rotate st with force := true } : JoinState α).target
            = st.target := rotate_target st
        have hinv2 : JInv { rotate st with force := true } := by
          refine ⟨?_, ?_, ?_, ?_⟩
          · rw [hch2]
            exact hasc
          · rw [hch2, htg2]
            exact hbd
          · rw [hch2, htg2]
            exact hatt
          · intro _
            rw [hch2, htg2]
            exact hall
        have hmu2 : muJ { rotate st with force := true } < fuel := by
          have hd2 : dIdx { rotate st with force := true }
              ≤ (chans st).length := by
            have h := dIdx_le { rotate st with force := true }
            rwa [hch2] at h
          have hσ2 : sigmaRests { rotate st with force := true }
              = sigmaRests st := by
            unfold sigmaRests
            rw [hch2]
          have harith := muJ_yield_arith (sigmaRests st) ((chans st).length)
            (dIdx st) (dIdx { rotate st with force := true }) hd2
          have h0 : muJ { rotate st with force := true }
              = (2 * sigmaRests { rotate st with force := true } + 0)
                  * ((chans { rotate st with force := true }).length + 1)
                + dIdx { rotate st with force := true } := rfl
          have h1 : muJ st
              = (2 * sigmaRests st + cond st.force 0 1)
                  * ((chans st).length + 1) + dIdx st := rfl
          have hb : cond st.force (0 : Nat) 1 = 1 := cond_of_false hf2 0 1
          rw [h0, hσ2, hch2]
          rw [h1, hb] at hmu
          omega
        rw [ih { rotate st with force := true } hinv2 hmu2]
        show some (((rotate st).target, chanVals (rotate st))
            :: stSpec { rotate st with force := true }) = some (stSpec st)
        congr 1
        have hSt2 : stSpec { rotate st with force := true }
            = joinSpec ((chans st).map (fun c => c.2)) := by
          have h0 : stSpec { rotate st with force := true }
              = joinSpec ((chans { rotate st with force := true }).map
                  (fun c => c.2)) := rfl
          rw [h0, hch2]
        have hcv : chanVals (rotate st) = (chans st).map (fun c => c.1.2) := by
          unfold chanVals
          rw [chans_rotate]
        rw [hSt2, hSt, rotate_target, hcv]
        obtain ⟨c₀, cs', hch⟩ : ∃ c₀ cs', chans st = c₀ :: cs' := by
          rcases hLc : st.left with _ | ⟨x, xs⟩
          · exact ⟨st.cur, st.right, by simp [chans, hLc]⟩
          · exact ⟨x, xs ++ st.cur :: st.right, by simp [chans, hLc]⟩
        have hks : ∀ c ∈ c₀ :: cs', chanKey c = st.target := by
          intro c hc
          apply hall
          rw [hch]
          exact hc
        have htails : ∀ c ∈ c₀ :: cs', ∀ p ∈ c.2, st.target < p.1 := by
          intro c hc p hp
          have hcm : c ∈ chans st := by
            rw [hch]
            exact hc
          have hA2 : Asc (c.1 :: c.2) := hasc c hcm
          have h := Asc_head_lt hA2 p hp
          have he : chanKey c = c.1.1 := rfl
          have hk := hks c hc
          omega
        rw [hch]
        exact (joinSpec_yield c₀ cs' st.target hks htails).symm
      · -- i += 1, no yield: the first needy channel is strictly closer
        rw [if_neg hmin]
        obtain ⟨cm, hcmmem, hcmk⟩ := minKeys_attained (rotate st)
        have hcmS : cm ∈ chans st := by
          rw [← chans_rotate]
          exact hcmmem
        have hcmlt : chanKey cm < st.target := by
          have h1 := hbd cm hcmS
          rw [rotate_target] at hmin
          omega
        have hcm_ne : cm ≠ st.cur := by
          intro he
          rw [he] at hcmlt
          omega
        have hcmRL : cm ∈ st.right ++ st.left := by
          rcases List.mem_append.1 hcmS with h | h
          · exact List.mem_append_right _ h
          · rcases List.mem_cons.1 h with he | h'
            · exact absurd he hcm_ne
            · exact List.mem_append_left _ h'
        have hcurnot : needyB st.target st.cur = false := by
          unfold needyB
          rw [decide_eq_false_iff_not]
          omega
        have hd : dIdx (rotate st) < dIdx st := by
          have hrw : dIdx (rotate st)
              = ((st.right ++ st.left) ++ [st.cur]).findIdx
                  (needyB st.target) := by
            unfold dIdx
            rw [rotate_cyc, rotate_target]
          have hrw2 : dIdx st
              = (st.cur :: (st.right ++ st.left)).findIdx
                  (needyB st.target) := rfl
          rw [hrw, hrw2,
            findIdx_append_of_exists _ _ _
              ⟨cm, hcmRL, decide_eq_true hcmlt⟩,
            List.findIdx_cons, hcurnot, cond_of_false rfl _ _]
          omega
        have hmu1 : muJ (rotate st) < fuel := by
          have hlt2 : muJ (rotate st) < muJ st := by
            have h0 : muJ (rotate st)
                = (2 * sigmaRests (rotate st) + cond (rotate st).force 0 1)
                    * ((chans (rotate st)).length + 1) + dIdx (rotate st) := rfl
            have h1 : muJ st
                = (2 * sigmaRests st + cond st.force 0 1)
                    * ((chans st).length + 1) + dIdx st := rfl
            have hσ : sigmaRests (rotate st) = sigmaRests st := by
              unfold sigmaRests
              rw [chans_rotate]
            rw [h0, h1, hσ, chans_rotate, rotate_force]
            exact Nat.add_lt_add_left hd _
          omega
        rw [ih (rotate st) hinv1 hmu1]
        congr 1
        have hsp0 : stSpec (rotate st)
            = joinSpec ((chans (rotate st)).map chanSeq) := by
          unfold stSpec
          rw [if_neg]
          rw [rotate_force]
          exact hf
        rw [hsp0, chans_rotate, hSt]


/-! ### Entry glue: the initial state and the spec-side characterisation -/

theorem toChans_none {α : Type} :
    ∀ (ls : List (List (Nat × α))), toChans ls = none → [] ∈ ls := by
  intro ls
  induction ls with
  | nil =>
    intro h
    cases h
  | cons l rest ih =>
    intro h
    cases l with
    | nil => exact List.mem_cons_self _ _
    | cons x xs =>
      rw [toChans] at h
      rcases htc : toChans rest with _ | cs
      · exact List.mem_cons_of_mem _ (ih htc)
      · rw [htc] at h
        cases h

theorem toChans_some {α : Type} :
    ∀ (ls : List (List (Nat × α))) (chs : List (Chan α)),
      toChans ls = some chs → chs.map chanSeq = ls := by
  intro ls
  induction ls with
  | nil =>
    intro chs h
    rw [toChans] at h
    cases h
    rfl
  | cons l rest ih =>
    intro chs h
    cases l with
    | nil =>
      rw [toChans] at h
      cases h
    | cons x xs =>
      rw [toChans] at h
      rcases htc : toChans rest with _ | cs
      · rw [htc] at h
        cases h
      · rw [htc] at h
        cases h
        rw [List.map_cons, chanSeq_mk, ih cs htc]

theorem foldlMax_init_le {α : Type} :
    ∀ (l : List (Chan α)) (a : Nat),
      a ≤ l.foldl (fun m c => max m (chanKey c)) a := by
  intro l
  induction l with
  | nil => exact fun a => le_refl a
  | cons x xs ih =>
    intro a
    rw [List.foldl_cons]
    exact le_trans (Nat.le_max_left _ _) (ih _)

theorem foldlMax_le_of_mem {α : Type} :
    ∀ (l : List (Chan α)) (a : Nat) (c : Chan α), c ∈ l →
      chanKey c ≤ l.foldl (fun m c => max m (chanKey c)) a := by
  intro l
  induction l with
  | nil =>
    intro a c hc
    cases hc
  | cons x xs ih =>
    intro a c hc
    rw [List.foldl_cons]
    rcases List.mem_cons.1 hc with rfl | hc'
    · exact le_trans (Nat.le_max_right _ _) (foldlMax_init_le _ _)
    · exact ih _ c hc'

theorem foldlMax_attained {α : Type} :
    ∀ (l : List (Chan α)) (a : Nat),
      l.foldl (fun m c => max m (chanKey c)) a = a
        ∨ ∃ c ∈ l, l.foldl (fun m c => max m (chanKey c)) a = chanKey c := by
  intro l
  induction l with
  | nil => exact fun a => Or.inl rfl
  | cons x xs ih =>
    intro a
    rcases ih (max a (chanKey x)) with h | ⟨c, hc, he⟩
    · rcases Nat.le_total a (chanKey x) with hle | hle
      · exact Or.inr ⟨x, List.mem_cons_self x xs,
          by rw [List.foldl_cons, h, Nat.max_eq_right hle]⟩
      · exact Or.inl (by rw [List.foldl_cons, h, Nat.max_eq_left hle])
    · exact Or.inr ⟨c, List.mem_cons_of_mem _ hc,
        by rw [List.foldl_cons]; exact he⟩

theorem sum_map_len_chanSeq {α : Type} :
    ∀ l : List (Chan α),
      (l.map (fun x => (chanSeq x).length)).sum
        = (l.map (fun x => x.2.length)).sum + l.length := by
  intro l
  induction l with
  | nil => rfl
  | cons x xs ih =>
    simp only [List.map_cons, List.sum_cons, List.length_cons, ih]
    have h : (chanSeq x).length = x.2.length + 1 := rfl
    rw [h]
    omega

theorem seqLookup_isSome_of {α : Type} :
    ∀ (ls : List (List (Nat × α))) (s : Nat),
      (∀ l ∈ ls, (lookupStep l s).isSome) → (seqLookup ls s).isSome := by
  intro ls s
  induction ls with
  | nil =>
    intro _
    rfl
  | cons l rest ih =>
    intro h
    rcases hl : lookupStep l s with _ | v
    · have hh := h l (List.mem_cons_self _ _)
      rw [hl] at hh
      simp at hh
    · rcases hr : seqLookup rest s with _ | vs
      · have hh := ih (fun x hx => h x (List.mem_cons_of_mem _ hx))
        rw [hr] at hh
        simp at hh
      · simp only [seqLookup, hl, hr, Option.isSome_some]

theorem joinSpec_mem_lookup {α : Type} (ls : List (List (Nat × α)))
    (e : Nat × List α) (he : e ∈ joinSpec ls) :
    seqLookup ls e.1 = some e.2 ∧ e.2.length = ls.length := by
  cases ls with
  | nil => exact absurd he (List.not_mem_nil e)
  | cons l0 rest =>
    rw [joinSpec_cons_eq] at he
    obtain ⟨p, hp, hfp⟩ := List.mem_filterMap.1 he
    have hfp' : (seqLookup (l0 :: rest) p.1).map (fun vs => (p.1, vs))
        = some e := hfp
    rcases hsl : seqLookup (l0 :: rest) p.1 with _ | vs
    · rw [hsl] at hfp'
      cases hfp'
    · rw [hsl, Option.map_some'] at hfp'
      cases hfp'
      exact ⟨hsl, seqLookup_length hsl⟩

theorem joinSpec_mem_iff {α : Type} (l0 : List (Nat × α))
    (rest : List (List (Nat × α))) (s : Nat) :
    (∃ vs, (s, vs) ∈ joinSpec (l0 :: rest))
      ↔ ∀ l ∈ l0 :: rest, s ∈ l.map Prod.fst := by
  constructor
  · rintro ⟨vs, hvs⟩
    have h := (joinSpec_mem_lookup _ _ hvs).1
    intro l hl
    exact lookupStep_isSome_iff.1 (seqLookup_isSome_lookup h l hl)
  · intro h
    obtain ⟨p, hp, hps⟩ := List.mem_map.1 (h l0 (List.mem_cons_self _ _))
    have hsome : (seqLookup (l0 :: rest) s).isSome := by
      apply seqLookup_isSome_of
      intro l hl
      exact lookupStep_isSome_iff.2 (h l hl)
    rcases hsl : seqLookup (l0 :: rest) s with _ | vs
    · rw [hsl] at hsome
      simp at hsome
    · refine ⟨vs, ?_⟩
      rw [joinSpec_cons_eq]
      apply List.mem_filterMap.2
      refine ⟨p, hp, ?_⟩
      show (seqLookup (l0 :: rest) p.1).map (fun vs => (p.1, vs))
          = some (s, vs)
      rw [hps, hsl, Option.map_some']

theorem chain_filterMap {α : Type} (f : Nat × α → Option (Nat × List α))
    (hf : ∀ p b, f p = some b → b.1 = p.1) :
    ∀ (l : List (Nat × α)), Asc l →
      (l.filterMap f).Chain' (fun a b => a.1 < b.1) := by
  intro l
  induction l with
  | nil =>
    intro _
    exact List.chain'_nil
  | cons p l ih =>
    intro h
    have htl := ih (Asc_tail h)
    rw [List.filterMap_cons]
    rcases hfp : f p with _ | b
    · exact htl
    · apply List.chain'_cons'.2
      refine ⟨?_, htl⟩
      intro y hy
      obtain ⟨q, hq, hfq⟩ :=
        List.mem_filterMap.1 (List.mem_of_mem_head? hy)
      have h1 : y.1 = q.1 := hf q y hfq
      have h2 : b.1 = p.1 := hf p b hfp
      have h3 : p.1 < q.1 := Asc_head_lt h q hq
      omega

theorem joinSpec_chain {α : Type} (ls : List (List (Nat × α)))
    (hasc : ∀ l ∈ ls, Asc l) :
    (joinSpec ls).Chain' (fun a b => a.1 < b.1) := by
  cases ls with
  | nil => exact List.chain'_nil
  | cons l0 rest =>
    rw [joinSpec_cons_eq]
    apply chain_filterMap
    · intro p b hb
      have hb' : (seqLookup (l0 :: rest) p.1).map (fun vs => (p.1, vs))
          = some b := hb
      rcases hs : seqLookup (l0 :: rest) p.1 with _ | vs
      · rw [hs] at hb'
        cases hb'
      · rw [hs, Option.map_some'] at hb'
        cases hb'
        rfl
    · exact hasc l0 (List.mem_cons_self _ _)

/-- C1: for every list of K ≥ 1 per-quantity (step, value) sequences, each
strictly ascending in step, `_join_by_first_of_tuple` (the merge-join
generator, run to completion) yields exactly the pairs
`(step, [v1, ..., vK])` for the steps present in all K sequences, in
strictly ascending step order, each yielded tuple carrying exactly K
values, one from each sequence (it returns as soon as any sequence is
exhausted, which is when nothing further can be common to all). -/
theorem join_by_first_correct {α : Type} (ls : List (List (Nat × α)))
    (hK : 1 ≤ ls.length) (hasc : ∀ l ∈ ls, Asc l) :
    _join_by_first_of_tuple ls = some (joinSpec ls)
    ∧ (joinSpec ls).Chain' (fun a b => a.1 < b.1)
    ∧ (∀ e ∈ joinSpec ls, e.2.length = ls.length
        ∧ seqLookup ls e.1 = some e.2)
    ∧ (∀ s : Nat, (∃ vs, (s, vs) ∈ joinSpec ls)
        ↔ ∀ l ∈ ls, s ∈ l.map Prod.fst) := by
  obtain ⟨l0, rest, rfl⟩ : ∃ l0 rest, ls = l0 :: rest := by
    cases ls with
    | nil => simp at hK
    | cons a b => exact ⟨a, b, rfl⟩
  refine ⟨?_, joinSpec_chain _ hasc,
    fun e he => ⟨(joinSpec_mem_lookup _ _ he).2, (joinSpec_mem_lookup _ _ he).1⟩,
    fun s => joinSpec_mem_iff l0 rest s⟩
  rcases htc : toChans (l0 :: rest) with _ | chs
  · have h1 : _join_by_first_of_tuple (l0 :: rest) = some [] := by
      unfold _join_by_first_of_tuple
      rw [htc]
    rw [h1, joinSpec_empty_mem (toChans_none _ htc)]
  · have hmap := toChans_some _ _ htc
    cases chs with
    | nil =>
      rw [List.map_nil] at hmap
      cases hmap
    | cons c cs =>
      have h1 : _join_by_first_of_tuple (l0 :: rest)
          = joinRun (joinFuel (l0 :: rest))
              { left := [], cur := c, right := cs,
                target := nmaxKeys c cs, force := false } := by
        unfold _join_by_first_of_tuple
        rw [htc]
      rw [h1]
      rw [List.map_cons] at hmap
      injection hmap with hl0 hrest
      have hmem : ∀ x ∈ c :: cs, chanSeq x ∈ l0 :: rest := by
        intro x hx
        rcases List.mem_cons.1 hx with rfl | hx'
        · rw [hl0]
          exact List.mem_cons_self _ _
        · rw [← hrest]
          exact List.mem_cons_of_mem _ (List.mem_map_of_mem _ hx')
      have hinv0 : JInv (⟨[], c, cs, nmaxKeys c cs, false⟩ : JoinState α) := by
        refine ⟨?_, ?_, ?_, ?_⟩
        · intro x hx
          exact hasc _ (hmem x hx)
        · intro x hx
          rcases List.mem_cons.1 hx with rfl | hx'
          · exact foldlMax_init_le _ _
          · exact foldlMax_le_of_mem _ _ _ hx'
        · rcases foldlMax_attained cs (chanKey c) with h | ⟨x, hx, he⟩
          · exact ⟨c, List.mem_cons_self _ _, h.symm⟩
          · exact ⟨x, List.mem_cons_of_mem _ hx, he.symm⟩
        · intro h
          cases h
      have hS : ((l0 :: rest).map List.length).sum
          = ((c :: cs).map (fun x => x.2.length)).sum + (cs.length + 1) := by
        rw [← hl0, ← hrest, ← List.map_cons, List.map_map]
        rw [show (List.length ∘ chanSeq (α := α))
            = (fun x : Chan α => (chanSeq x).length) from rfl]
        rw [sum_map_len_chanSeq]
        simp
      have hK0 : rest.length = cs.length := by
        rw [← hrest, List.length_map]
      have hd0 : dIdx (⟨[], c, cs, nmaxKeys c cs, false⟩ : JoinState α)
          ≤ cs.length + 1 :=
        dIdx_le (⟨[], c, cs, nmaxKeys c cs, false⟩ : JoinState α)
      have hmu0 : muJ (⟨[], c, cs, nmaxKeys c cs, false⟩ : JoinState α)
          < joinFuel (l0 :: rest) := by
        show (2 * ((c :: cs).map (fun x => x.2.length)).sum + 1)
            * ((cs.length + 1) + 1)
            + dIdx (⟨[], c, cs, nmaxKeys c cs, false⟩ : JoinState α)
          < (2 * ((l0 :: rest).map List.length).sum + 2)
            * ((l0 :: rest).length + 2)
        rw [hS, show (l0 :: rest).length = rest.length + 1 from rfl, hK0]
        exact joinFuel_arith _ _ _ _ hd0 (by omega)
      rw [joinRun_eq (joinFuel (l0 :: rest)) _ hinv0 hmu0]
      congr 1
      have h2 : stSpec (⟨[], c, cs, nmaxKeys c cs, false⟩ : JoinState α)
          = joinSpec ((c :: cs).map chanSeq) := rfl
      rw [h2, List.map_cons, hl0, hrest]

/-- Concrete instance of `join_by_first_correct`: two ascending sequences
sharing exactly step 2. -/
theorem join_by_first_correct_witness :
    _join_by_first_of_tuple [[(0, 10), (2, 20)], [(1, 30), (2, 40)]]
      = some (joinSpec [[(0, 10), (2, 20)], [(1, 30), (2, 40)]]) :=
  (join_by_first_correct [[(0, 10), (2, 20)], [(1, 30), (2, 40)]]
    (by decide)
    (by
      intro l hl
      rcases List.mem_cons.1 hl with rfl | hl'
      · exact List.chain'_cons.2 ⟨by decide, List.chain'_singleton _⟩
      · rcases List.mem_cons.1 hl' with rfl | hl''
        · exact List.chain'_cons.2 ⟨by decide, List.chain'_singleton _⟩
        · cases hl'')).1

end Logpyle
